import Mathlib

/-!
Verification of the glowfic-dl content assembly pipeline.

The Python source (glowfic-dl.py) is shallowly embedded here.  Python
strings are modelled as `List Char` (sequences of Unicode code points,
matching Python semantics where indexing and slicing are per code point),
and `len(s.encode("utf-8"))` is modelled by `utf8Len`.  Fallible Python
code (raise) is modelled with `Option` and explicit result types.
-/

namespace Glowfic

/-- Number of bytes of the UTF-8 encoding of one code point (models the
contribution of a character to `len(s.encode("utf-8"))` in Python). -/
def charBytes (c : Char) : Nat :=
  if c.toNat < 0x80 then 1
  else if c.toNat < 0x800 then 2
  else if c.toNat < 0x10000 then 3
  else 4

/-- Models Python `len(s.encode("utf-8"))`. -/
def utf8Len (l : List Char) : Nat := (l.map charBytes).sum

/-- Models Python `s.split(sep)` for a one-character separator `sep`:
the result is the list of maximal runs between separators, including
empty runs (`"".split(".") == [""]`). -/
def pySplit (sep : Char) : List Char → List (List Char)
  | [] => [[]]
  | c :: rest =>
    match pySplit sep rest with
    | [] => [[]]
    | s :: ss => if c = sep then [] :: s :: ss else (c :: s) :: ss

/-- Models Python `sep.join(parts)` for a one-character separator. -/
def pyJoin (sep : Char) : List (List Char) → List Char
  | [] => []
  | [x] => x
  | x :: y :: ys => x ++ sep :: pyJoin sep (y :: ys)

/-- Split a list at the first occurrence of `sep`: returns the part
before and the part after, or `none` if `sep` does not occur.  Used to
model `str.split(sep, 1)` and `str.find` idioms inside `urlsplit`. -/
def splitFirst (sep : Char) : List Char → Option (List Char × List Char)
  | [] => none
  | c :: rest =>
    if c = sep then some ([], rest)
    else
      match splitFirst sep rest with
      | none => none
      | some (a, b) => some (c :: a, b)

/-- Models the loop
`while len(filtered_filename) > 0 and filtered_filename[-1] == ".":
  filtered_filename = filtered_filename[:-1]`
in `make_filename_valid_for_epub3`: strip trailing period characters. -/
def rstripDots (l : List Char) : List Char :=
  (l.reverse.dropWhile (fun c => c = '.')).reverse

/-- `FILENAME_BANNED_CHARS` from the source. -/
def FILENAME_BANNED_CHARS : List Char :=
  ['/', '\\', '"', '*', ':', '<', '>', '?', '|', '\u007F']

/-- `FILENAME_BANNED_CHAR_RANGES` from the source (inclusive code point
ranges). -/
def FILENAME_BANNED_CHAR_RANGES : List (Nat × Nat) :=
  [(0x0000, 0x001F), (0x0080, 0x009F), (0xE000, 0xF8FF), (0xFDD0, 0xFDEF),
   (0xFFF0, 0xFFFF), (0xE0000, 0xE0FFF), (0xF0000, 0xFFFFF), (0x100000, 0x10FFFF)]

/-- One character is kept by the filtering loop of
`make_filename_valid_for_epub3` iff it is not in `FILENAME_BANNED_CHARS`
and lies in none of the banned ranges. -/
def charAllowed (c : Char) : Bool :=
  !(FILENAME_BANNED_CHARS.contains c) &&
    FILENAME_BANNED_CHAR_RANGES.all
      (fun r => !(decide (r.1 ≤ c.toNat) && decide (c.toNat ≤ r.2)))

/-- Result of `make_filename_valid_for_epub3`.  `ok` is a normal return;
`invalidName` models the first `raise Exception` (name containing only
invalid characters and/or periods); `extensionTooLong` models the second
`raise Exception` (extension longer than 255 bytes); `diverge` marks the
inputs on which the Python truncation `while` loop never terminates
(the loop body `name_truncated = name_truncated[:-1]` is the identity on
the empty string, so if the empty name still does not fit the loop spins
forever). -/
inductive FilenameResult where
  | ok (name : List Char)
  | invalidName
  | extensionTooLong
  | diverge
deriving DecidableEq

/-- The truncation loop
`while len(full_name_truncated.encode("utf-8")) > 255: ...`,
written structurally over the REVERSED name so that chopping the last
character (`name_truncated[:-1]`) is structural recursion.  The argument
is `name_truncated.reverse`; the returned value is the final
`full_name_truncated = name + "." + ext`. -/
def truncGoRev (ext : List Char) : List Char → Option (List Char)
  | [] => if utf8Len ('.' :: ext) ≤ 255 then some ('.' :: ext) else none
  | c :: r =>
    let full := (c :: r).reverse ++ '.' :: ext
    if utf8Len full ≤ 255 then some full else truncGoRev ext r

/-- The truncation loop of `make_filename_valid_for_epub3`, starting from
name portion `name` and extension `ext`. -/
def truncLoop (ext name : List Char) : Option (List Char) :=
  truncGoRev ext name.reverse

/-- `make_filename_valid_for_epub3` from the source, step for step:
filter banned characters, strip trailing periods, fail on an empty
result, return names of at most 255 UTF-8 bytes unchanged, otherwise
split off the final extension segment, fail if it alone exceeds 255
bytes, and truncate the name portion character by character until the
whole name fits in 255 bytes. -/
def make_filename_valid_for_epub3 (filename : List Char) : FilenameResult :=
  let filtered_filename := rstripDots (filename.filter charAllowed)
  if filtered_filename = [] then .invalidName
  else if utf8Len filtered_filename ≤ 255 then .ok filtered_filename
  else
    let split_filename := pySplit '.' filtered_filename
    let ext := split_filename.getLastD []
    if 255 < utf8Len ext then .extensionTooLong
    else
      match truncLoop ext ((pyJoin '.' split_filename.dropLast).dropLast) with
      | some r => .ok r
      | none => .diverge

/-- Decimal digit to character (used to model Python `str(i)` for
nonnegative integers).  Arguments not below 10 never occur. -/
def digitCh : Nat → Char
  | 0 => '0' | 1 => '1' | 2 => '2' | 3 => '3' | 4 => '4'
  | 5 => '5' | 6 => '6' | 7 => '7' | 8 => '8' | _ => '9'

/-- Fueled decimal printer: one unit of fuel per digit suffices, the
fuel is always called with at least `n + 1`. -/
def decAux : Nat → Nat → List Char
  | 0, _ => []
  | fuel + 1, n => if n < 10 then [digitCh n] else decAux fuel (n / 10) ++ [digitCh (n % 10)]

/-- Models Python `str(n)` for a nonnegative integer `n`. -/
def decRepr (n : Nat) : List Char := decAux (n + 1) n

/-- Models Python `len(str(n))`. -/
def lenDec (n : Nat) : Nat := (decRepr n).length

/-- Models the C format conversion `"%.*i" % (w, n)` for nonnegative `n`:
the decimal representation zero-padded on the left to a minimum of `w`
digits. -/
def padInt (w n : Nat) : List Char := List.replicate (w - lenDec n) '0' ++ decRepr n

/-- `SECTION_SIZE_LIMIT` from the source. -/
def SECTION_SIZE_LIMIT : Nat := 200000

/-- Result of `urllib.parse.urlsplit`: scheme, netloc, path, query and
fragment components.  The source calls `urlparse`, which is `urlsplit`
followed by splitting the extra `params` component off the path; that
step is modelled on top of this one by `urlparseM`. -/
structure SplitUrl where
  scheme : List Char
  netloc : List Char
  path : List Char
  query : List Char
  fragment : List Char
deriving DecidableEq

/-- Characters allowed in a URL scheme after the first one
(CPython `scheme_chars`): ASCII letters, digits, `+`, `-`, `.`. -/
def schemeChar (c : Char) : Bool :=
  decide (('a' ≤ c ∧ c ≤ 'z') ∨ ('A' ≤ c ∧ c ≤ 'Z') ∨ ('0' ≤ c ∧ c ≤ '9') ∨
    c = '+' ∨ c = '-' ∨ c = '.')

/-- ASCII letter test (CPython `url[0].isascii() and url[0].isalpha()`
restricted to the ASCII range, which is all that check accepts). -/
def isAsciiAlpha (c : Char) : Bool :=
  decide (('a' ≤ c ∧ c ≤ 'z') ∨ ('A' ≤ c ∧ c ≤ 'Z'))

/-- ASCII lowercasing of the scheme (all accepted scheme characters are
ASCII, so Python `str.lower` agrees with this on them). -/
def asciiLower (c : Char) : Char :=
  if 'A' ≤ c ∧ c ≤ 'Z' then Char.ofNat (c.toNat + 32) else c

/-- A character ending the netloc scan: `/`, `?` or `#`. -/
def netlocDelim (c : Char) : Bool := decide (c = '/' ∨ c = '?' ∨ c = '#')

/-- Scheme recognition step of CPython `urlsplit`: if the part before
the first `:` is nonempty, starts with an ASCII letter and consists of
scheme characters, it is the (lowercased) scheme. -/
def parseScheme (url : List Char) : List Char × List Char :=
  match splitFirst ':' url with
  | none => ([], url)
  | some (before, after) =>
    match before with
    | [] => ([], url)
    | c :: _ =>
      if isAsciiAlpha c && before.all schemeChar then (before.map asciiLower, after)
      else ([], url)

/-- Netloc recognition step of CPython `urlsplit`: after the scheme, a
leading `//` introduces the netloc, which extends to the first `/`, `?`
or `#`. -/
def splitNetloc (l : List Char) : List Char × List Char :=
  match l with
  | '/' :: '/' :: r =>
    (r.takeWhile (fun c => !netlocDelim c), r.dropWhile (fun c => !netlocDelim c))
  | _ => ([], l)

/-- Fragment split of CPython `urlsplit`: everything after the first `#`
is the fragment. -/
def splitFragment (l : List Char) : List Char × List Char :=
  match splitFirst '#' l with
  | some (a, b) => (a, b)
  | none => (l, [])

/-- Query split of CPython `urlsplit`: everything after the first `?`
(of the fragment-free part) is the query. -/
def splitQuery (l : List Char) : List Char × List Char :=
  match splitFirst '?' l with
  | some (a, b) => (a, b)
  | none => (l, [])

/-- Model of CPython `urlsplit` (see the note on `SplitUrl` about
`params`): scheme first, then `//netloc` up to the first `/`, `?` or
`#`, then the fragment after the first `#`, then the query after the
first `?` of what remains. -/
def urlsplitM (url : List Char) : SplitUrl :=
  let sp := parseScheme url
  let np := splitNetloc sp.2
  let fp := splitFragment np.2
  let qp := splitQuery fp.1
  { scheme := sp.1, netloc := np.1, path := qp.1, query := qp.2, fragment := fp.2 }

/-- Model of CPython `urlunsplit`, the `geturl()` of a parse result. -/
def urlunsplitM (u : SplitUrl) : List Char :=
  let url0 :=
    if u.netloc ≠ [] ∨ (u.path ≠ [] ∧ u.path.take 2 = ['/', '/']) then
      let p := if u.path ≠ [] ∧ u.path.head? ≠ some '/' then '/' :: u.path else u.path
      '/' :: '/' :: (u.netloc ++ p)
    else u.path
  let url1 := if u.scheme ≠ [] then u.scheme ++ ':' :: url0 else url0
  let url2 := if u.query ≠ [] then url1 ++ '?' :: u.query else url1
  if u.fragment ≠ [] then url2 ++ '#' :: u.fragment else url2

/-- Result of `urllib.parse.urlparse`: the `urlsplit` components plus
the `params` component, split from the last path segment at a `;`. -/
structure ParseUrl where
  scheme : List Char
  netloc : List Char
  path : List Char
  params : List Char
  query : List Char
  fragment : List Char
deriving DecidableEq

/-- CPython `uses_params`: the schemes whose parse separates `params`
from the path.  Only the membership of the empty scheme and of `https`
matters to the URLs the program handles. -/
def usesParams : List (List Char) :=
  [[], ("ftp".data), ("hdl".data), ("prospero".data), ("http".data),
   ("imap".data), ("https".data), ("shttp".data), ("rtsp".data),
   ("rtsps".data), ("rtspu".data), ("sip".data), ("sips".data),
   ("mms".data), ("sftp".data), ("tel".data)]

/-- CPython `_splitparams` on a path: with a `/` present, split at the
first `;` at or after the last `/` (no such `;`: no params); with no
`/`, split at the first `;`.  The caller `urlparse` only invokes this
when the path contains a `;`; were the path nonetheless `;`-free in
the no-`/` branch, Python would return the pair of `url[:-1]` and
`url`, which the model mirrors. -/
def splitParams (p : List Char) : List Char × List Char :=
  if '/' ∈ p then
    match splitFirst ';' ((p.reverse.takeWhile (fun c => !decide (c = '/'))).reverse) with
    | none => (p, [])
    | some (a, b) => ((p.reverse.dropWhile (fun c => !decide (c = '/'))).reverse ++ a, b)
  else
    match splitFirst ';' p with
    | none => (p.dropLast, p)
    | some (a, b) => (a, b)

/-- Model of CPython `urlparse`: `urlsplit`, then for a scheme of
`uses_params` a `;` in the path splits the params off it. -/
def urlparseM (url : List Char) : ParseUrl :=
  let u := urlsplitM url
  let pp := if u.scheme ∈ usesParams ∧ ';' ∈ u.path then splitParams u.path
            else (u.path, [])
  ⟨u.scheme, u.netloc, pp.1, pp.2, u.query, u.fragment⟩

/-- Model of CPython `urlunparse`, the `geturl()` of a `urlparse`
result: nonempty params are reattached to the path after a `;`, then
`urlunsplit`. -/
def urlunparseM (u : ParseUrl) : List Char :=
  urlunsplitM ⟨u.scheme, u.netloc,
    if u.params ≠ [] then u.path ++ ';' :: u.params else u.path, u.query, u.fragment⟩

/-- Models `REPLY_RE.match(raw)` for `REPLY_RE = /(replies|posts)/\d*`:
since `\d*` also matches the empty string and `re.match` anchors only at
the start, the match succeeds exactly on strings starting with
`/replies/` or `/posts/`. -/
def replyMatch (raw : List Char) : Bool :=
  ("/replies/".data).isPrefixOf raw || ("/posts/".data).isPrefixOf raw

/-- The body of the link-rewriting loop of `compile_chapters` for one
`href` value `raw`, with `anchor_sections` as the lookup into the built
anchor index: `url = urlparse(raw_url)`; a reply-pattern link found in
the index gets its path replaced by the mapped file name (params, query
and fragment kept and reserialized by `geturl`); otherwise a link
without netloc gets scheme `https` and netloc `glowfic.com`; otherwise
the href is left unchanged. -/
def rewriteLink (anchor_sections : List Char → Option (List Char)) (raw : List Char) :
    List Char :=
  let url := urlparseM raw
  match (if replyMatch raw then anchor_sections raw else none) with
  | some f => urlunparseM { url with path := f }
  | none =>
    if url.netloc = [] then
      urlunparseM { url with scheme := ("https".data), netloc := ("glowfic.com".data) }
    else raw

/-- `MappedImage` from the source. -/
structure MappedImage where
  name : List Char
  id : Nat
  ext : List Char
deriving DecidableEq

/-- `MappedImage.to_filename`: the format string
`"Images/%s%.*i.%s" % (name, id_width, id, ext)`. -/
def MappedImage.to_filename (m : MappedImage) (id_width : Nat) : List Char :=
  ("Images/".data) ++ m.name ++ padInt id_width m.id ++ '.' :: m.ext

/-- State of an `ImageMap` instance: the `url -> MappedImage` dict in
insertion order, plus the `next_icon` counter and the current
`icon_id_width`. -/
structure ImageMap where
  map : List (List Char × MappedImage)
  next_icon : Nat
  icon_id_width : Nat
deriving DecidableEq

/-- `ImageMap.__init__`. -/
def ImageMap.init : ImageMap := { map := [], next_icon := 0, icon_id_width := 1 }

/-- Dict lookup on the insertion-ordered association list. -/
def mapLookup : List (List Char × MappedImage) → List Char → Option MappedImage
  | [], _ => none
  | (k, v) :: rest, url => if k = url then some v else mapLookup rest url

/-- `ImageMap.add_icon`: if the url is not yet a key, derive the
extension from the last `.`-segment of `urlparse(url).path`, insert a
`MappedImage("icon", next_icon, ext)`, recompute `icon_id_width` as
`len(str(next_icon))` and then increment `next_icon`. -/
def ImageMap.add_icon (s : ImageMap) (url : List Char) : ImageMap :=
  match mapLookup s.map url with
  | some _ => s
  | none =>
    let ext := (pySplit '.' (urlparseM url).path).getLastD []
    { map := s.map ++ [(url, { name := ("icon".data), id := s.next_icon, ext := ext })],
      next_icon := s.next_icon + 1,
      icon_id_width := lenDec s.next_icon }

/-- `ImageMap.get_icon`: for an unregistered url the source calls
`self.add(url)`, a method that does not exist on the class, so Python
raises `AttributeError` before any state change; that failure is
modelled by `none`.  For a registered url it returns
`self.map[url].to_filename(self.icon_id_width)`. -/
def ImageMap.get_icon (s : ImageMap) (url : List Char) : Option (List Char) :=
  match mapLookup s.map url with
  | none => none
  | some m => some (m.to_filename s.icon_id_width)

/-- `RenderedPost` from the source.  The rendered HTML fragment is kept
as its code point sequence; its internal assembly by `render_post`
(header line, anchor tag, icon img) is not needed by the claims about
the splitter and is abstracted. -/
structure RenderedPost where
  html : List Char
  author : Option (List Char)
  permalink : List Char
  permalink_fragment : List Char
deriving DecidableEq

/-- A `Section` under construction: the posts appended to its body (in
order), the running `size`, and `link_targets`. -/
structure Section where
  posts : List RenderedPost
  size : Nat
  link_targets : List (List Char)
deriving DecidableEq

/-- `Section.__init__`: empty body, size 0, no link targets. -/
def Section.empty : Section := { posts := [], size := 0, link_targets := [] }

/-- `Section.append`: add `len(post.html.encode())` to the size, append
the post to the body and its permalink to `link_targets`. -/
def Section.append (s : Section) (post : RenderedPost) : Section :=
  { posts := s.posts ++ [post],
    size := s.size + utf8Len post.html,
    link_targets := s.link_targets ++ [post.permalink] }

/-- The loop of `render_posts`: for each rendered post, if adding it
would push the current section over `SECTION_SIZE_LIMIT` and the current
section is nonempty, yield the section and start a new one; append the
post to the current section; yield the final section. -/
def render_posts_loop (out : Section) : List RenderedPost → List Section
  | [] => [out]
  | rendered :: rest =>
    let post_size := utf8Len rendered.html
    if SECTION_SIZE_LIMIT < out.size + post_size ∧ 0 < out.size then
      out :: render_posts_loop (Section.empty.append rendered) rest
    else
      render_posts_loop (out.append rendered) rest

/-- `render_posts` restricted to its sectioning behaviour: the input is
the list of rendered posts of one chapter, in page order (the rendering
of each raw post and the image-map population have no effect on how the
posts are packed, only on the `html` payloads). -/
def render_posts (rendered : List RenderedPost) : List Section :=
  render_posts_loop Section.empty rendered

/-- The anchor identifier computed in `render_post`:
`permalink_fragment = urlparse(permalink).fragment`; if it is empty, the
anchor is `"post-" + permalink.split("/")[-1]`, else the fragment.  The
fragment of `urlparse` coincides with that of `urlsplit` (the params
split only touches the path), so the `urlsplit` component is used. -/
def postAnchor (permalink : List Char) : List Char :=
  let permalink_fragment := (urlsplitM permalink).fragment
  if permalink_fragment = [] then ("post-".data) ++ (pySplit '/' permalink).getLastD []
  else permalink_fragment

/-- Modelled from the spec: the anchor as the specification sentence
reads, with the numeric identifier taken from the last segment of the
parsed permalink's path component rather than from the raw permalink
string.  Used to compare the claim wording with `postAnchor`. -/
def postAnchorSpec (permalink : List Char) : List Char :=
  let u := urlsplitM permalink
  if u.fragment = [] then ("post-".data) ++ (pySplit '/' u.path).getLastD []
  else u.fragment

/-- The name format of `compile_chapters`:
`"%.*i-%.*i (%s).xhtml" % (chapter_digits, i1, section_digits, j, title)`. -/
def pyFormatName (chapter_digits i1 section_digits j : Nat) (title : List Char) :
    List Char :=
  padInt chapter_digits i1 ++ '-' :: padInt section_digits j ++
    ' ' :: '(' :: title ++ ')' :: (".xhtml".data)

/-- The file name `compile_chapters` assigns to section `j` (0-based) of
chapter `i` (0-based): `"Text/" + make_filename_valid_for_epub3(...)`
with the chapter index printed 1-based.  A sanitizer exception would
propagate out of `compile_chapters`; that is modelled by `none`. -/
def sectionFileName (chapter_digits section_digits i j : Nat) (title : List Char) :
    Option (List Char) :=
  match make_filename_valid_for_epub3 (pyFormatName chapter_digits (i + 1) section_digits j title) with
  | .ok s => some (("Text/".data) ++ s)
  | _ => none

/-- File-name assignment over a whole chapter list (each chapter is its
title together with its sections), with
`chapter_digits = len(str(len(chapters)))` and
`section_digits = len(str(len(sections)))` exactly as in
`compile_chapters`; `none` for out-of-range indices. -/
def assignedSectionFile (chapters : List (List Char × List Section)) (i j : Nat) :
    Option (List Char) :=
  match chapters[i]? with
  | none => none
  | some c =>
    if j < c.2.length then
      sectionFileName (lenDec chapters.length) (lenDec c.2.length) i j c.1
    else none

/-- An HTML tag, reduced to the `.text` payload used by
`validate_tag` and `download_chapter`. -/
structure HtmlTag where
  text : List Char
deriving DecidableEq

/-- ASCII whitespace for Python `str.strip()` (the Unicode whitespace
classes Python also strips are elided; no claim depends on them). -/
def pyIsSpace (c : Char) : Bool :=
  decide (c = ' ' ∨ c = '\t' ∨ c = '\n' ∨ c = '\r' ∨ c = '\x0B' ∨ c = '\x0C')

/-- Models Python `s.strip()`. -/
def pyStrip (l : List Char) : List Char :=
  ((l.dropWhile pyIsSpace).reverse.dropWhile pyIsSpace).reverse

/-- A fetched chapter page as far as `download_chapter` inspects it:
`postTitleTag` models `soup.find("span", id="post-title")`,
`flashErrorTag` models `soup.find("div", "flash error")`, and `posts`
models the rendering of `soup.find_all("div", "post-container")`. -/
structure Soup where
  postTitleTag : Option HtmlTag
  flashErrorTag : Option HtmlTag
  posts : List RenderedPost
deriving DecidableEq

/-- The two failures raised by `validate_tag`.  Both are Python
`RuntimeError`s, raised at two distinct raise sites; the spec error
taxonomy names them `RemoteError` (carrying the stripped error banner
text) and `UnexpectedStructureError` (the fixed message
`"Unknown error: tag missing"`). -/
inductive PyError where
  | remoteError (msg : List Char)
  | unexpectedStructure
deriving DecidableEq

/-- `validate_tag` from the source: pass a present tag through; for a
missing tag look for the `"flash error"` banner and raise a
`RuntimeError` with its stripped text, else raise the
unknown-error `RuntimeError`. -/
def validate_tag (tag : Option HtmlTag) (soup : Soup) : Except PyError HtmlTag :=
  match tag with
  | some t => .ok t
  | none =>
    match soup.flashErrorTag with
    | some err => .error (.remoteError (pyStrip err.text))
    | none => .error .unexpectedStructure

/-- `download_chapter` after the response has been fetched and parsed
into a `Soup`: validate the title tag (propagating its failures) and
return the stripped title together with the rendered sections. -/
def download_chapter (soup : Soup) : Except PyError (List Char × List Section) :=
  match validate_tag soup.postTitleTag soup with
  | .error e => .error e
  | .ok t => .ok (pyStrip t.text, render_posts soup.posts)

/-- Value of a digit string, used to invert the decimal printer. -/
def evalDec (l : List Char) : Nat := l.foldl (fun a c => 10 * a + (c.toNat - 48)) 0

/-- The `filtered_filename` local of `make_filename_valid_for_epub3`
after banned-character filtering and trailing-period stripping. -/
def filteredName (s : List Char) : List Char := rstripDots (s.filter charAllowed)

/-- The `ext` local of `make_filename_valid_for_epub3`: the last
`.`-separated segment of the filtered name. -/
def extSeg (s : List Char) : List Char := (pySplit '.' (filteredName s)).getLastD []

/-- Input on which the truncation loop of the source spins forever: the
filtered name `"a." + "b" * 255` is 257 bytes, its extension segment is
exactly 255 bytes, so `name + "." + ext` always exceeds 255 bytes even
once the name portion is empty. -/
def c6DivergeInput : List Char := 'a' :: '.' :: List.replicate 255 'b'

/-- A chapter list long enough that the zero-padded chapter index is 250
digits wide: file-name truncation then cuts into the index digits. -/
def c4CexChapters : List (List Char × List Section) :=
  List.replicate (10 ^ 249) (("T".data), [Section.empty])

/-- Image URLs `u0.png`, `u1.png`, ... used to drive the registry across
the ten-image boundary. -/
def c7CexUrl (k : Nat) : List Char := 'u' :: decRepr k ++ (".png".data)

/-- Registry after registering `u0.png` only. -/
def c7CexMap1 : ImageMap := ImageMap.init.add_icon (c7CexUrl 0)

/-- Registry after additionally registering `u1.png` ... `u10.png` (ten
further first-time registrations on top of `c7CexMap1`). -/
def c7CexMap11 : ImageMap :=
  (List.range 10).foldl (fun st k => st.add_icon (c7CexUrl (k + 1))) c7CexMap1

/-- A permalink with a query string and no fragment, on which the raw
string split of `render_post` differs from the last path segment. -/
def c8CexPermalink : List Char := ("https://glowfic.com/posts/9?page=2".data)

/-! Lemmas about the string utilities. -/

theorem utf8Len_append (a b : List Char) : utf8Len (a ++ b) = utf8Len a + utf8Len b := by
  simp [utf8Len]

theorem charBytes_pos (c : Char) : 0 < charBytes c := by
  unfold charBytes
  split <;> try omega
  split <;> try omega
  split <;> omega

theorem length_le_utf8Len (l : List Char) : l.length ≤ utf8Len l := by
  induction l with
  | nil => simp [utf8Len]
  | cons c t ih =>
    have := charBytes_pos c
    simp only [utf8Len, List.map_cons, List.sum_cons, List.length_cons] at *
    omega

theorem utf8Len_le_length_of_prefix {a b : List Char} (h : a <+: b) :
    utf8Len a ≤ utf8Len b := by
  obtain ⟨t, rfl⟩ := h
  rw [utf8Len_append]
  omega

theorem splitFirst_eq_none {sep : Char} {l : List Char} :
    splitFirst sep l = none ↔ sep ∉ l := by
  induction l with
  | nil => simp [splitFirst]
  | cons c t ih =>
    by_cases hc : c = sep
    · subst hc; simp [splitFirst]
    · simp only [splitFirst, if_neg hc, List.mem_cons]
      cases h : splitFirst sep t with
      | none =>
        have ht : sep ∉ t := ih.mp h
        simp only []
        constructor
        · intro _
          intro hor
          rcases hor with h1 | h2
          · exact hc h1.symm
          · exact ht h2
        · intro _; trivial
      | some ab =>
        simp only []
        constructor
        · intro hx; cases hx
        · intro hmem
          have ht : sep ∉ t := fun hx => hmem (Or.inr hx)
          rw [ih.mpr ht] at h
          cases h

theorem splitFirst_eq_some {sep : Char} {l a b : List Char}
    (h : splitFirst sep l = some (a, b)) : l = a ++ sep :: b ∧ sep ∉ a := by
  induction l generalizing a b with
  | nil => cases h
  | cons c t ih =>
    by_cases hc : c = sep
    · subst hc
      simp only [splitFirst, if_pos rfl, if_true, Option.some.injEq, Prod.mk.injEq] at h
      obtain ⟨h1, h2⟩ := h
      subst h1; subst h2
      simp
    · simp only [splitFirst, if_neg hc] at h
      cases hst : splitFirst sep t with
      | none => rw [hst] at h; cases h
      | some ab =>
        obtain ⟨a0, b0⟩ := ab
        rw [hst] at h
        simp only [Option.some.injEq, Prod.mk.injEq] at h
        obtain ⟨h1, h2⟩ := h
        subst h2
        obtain ⟨ht, hna⟩ := ih hst
        subst ht
        subst h1
        refine ⟨by simp, ?_⟩
        intro hmem
        rcases List.mem_cons.mp hmem with h1 | h2
        · exact hc h1.symm
        · exact hna h2

theorem splitFirst_append_sep (sep : Char) (xs ys : List Char) (hx : sep ∉ xs) :
    splitFirst sep (xs ++ sep :: ys) = some (xs, ys) := by
  induction xs with
  | nil => simp [splitFirst]
  | cons c t ih =>
    have hc : c ≠ sep := fun h => hx (h ▸ List.mem_cons_self c t)
    have ht : sep ∉ t := fun h => hx (List.mem_cons_of_mem _ h)
    simp only [List.cons_append, splitFirst, if_neg hc]
    rw [show t.append (sep :: ys) = t ++ sep :: ys from rfl, ih ht]

theorem splitFirst_not_mem (sep : Char) (l : List Char) (h : sep ∉ l) :
    splitFirst sep l = none := splitFirst_eq_none.mpr h

/-! Lemmas about `pySplit` and `pyJoin`. -/

theorem pySplit_ne_nil (sep : Char) (l : List Char) : pySplit sep l ≠ [] := by
  cases l with
  | nil => simp [pySplit]
  | cons c t =>
    simp only [pySplit]
    cases h : pySplit sep t with
    | nil => simp
    | cons s ss =>
      simp only [h]
      split <;> simp

theorem pyJoin_pySplit (sep : Char) (l : List Char) : pyJoin sep (pySplit sep l) = l := by
  induction l with
  | nil => simp [pySplit, pyJoin]
  | cons c t ih =>
    simp only [pySplit]
    cases h : pySplit sep t with
    | nil => exact absurd h (pySplit_ne_nil sep t)
    | cons s ss =>
      rw [h] at ih
      simp only [h]
      by_cases hc : c = sep
      · subst hc
        simp only [if_pos rfl, pyJoin]
        rw [ih]
        simp
      · simp only [if_neg hc]
        cases ss with
        | nil => simpa [pyJoin] using congrArg (c :: ·) ih
        | cons s2 ss2 => simpa [pyJoin] using congrArg (c :: ·) ih

theorem pySplit_not_mem (sep : Char) (l : List Char) (h : sep ∉ l) :
    pySplit sep l = [l] := by
  induction l with
  | nil => simp [pySplit]
  | cons c t ih =>
    have hc : c ≠ sep := fun hh => h (hh ▸ List.mem_cons_self c t)
    have ht : sep ∉ t := fun hh => h (List.mem_cons_of_mem _ hh)
    simp only [pySplit, ih ht, if_neg hc]

theorem pySplit_append_sep (sep : Char) (xs ys : List Char) :
    pySplit sep (xs ++ sep :: ys) = pySplit sep xs ++ pySplit sep ys := by
  induction xs with
  | nil =>
    simp only [List.nil_append, pySplit]
    cases h : pySplit sep ys with
    | nil => exact absurd h (pySplit_ne_nil sep ys)
    | cons s ss => simp [pySplit, h]
  | cons c t ih =>
    simp only [List.cons_append, pySplit]
    rw [show t.append (sep :: ys) = t ++ sep :: ys from rfl, ih]
    cases h : pySplit sep t with
    | nil => exact absurd h (pySplit_ne_nil sep t)
    | cons s ss =>
      by_cases hc : c = sep <;> simp [hc]

/-! Lemmas about `rstripDots`, `takeWhile` and `dropWhile`. -/

theorem dropWhile_head_false {p : Char → Bool} {l : List Char} {x : Char}
    {xs : List Char} (h : l.dropWhile p = x :: xs) : p x = false := by
  induction l generalizing x xs with
  | nil => cases h
  | cons c t ih =>
    rw [List.dropWhile_cons] at h
    split at h
    · exact ih h
    · rename_i hpc
      cases h
      simpa using hpc

theorem rstripDots_eq_self {l : List Char} (h : l.getLast? ≠ some '.') :
    rstripDots l = l := by
  unfold rstripDots
  cases hr : l.reverse with
  | nil =>
    have hl : l = [] := by simpa using congrArg List.reverse hr
    subst hl
    simp
  | cons c t =>
    have hc : c ≠ '.' := by
      intro hcc
      apply h
      rw [← List.head?_reverse, hr, hcc]
      rfl
    rw [List.dropWhile_cons, if_neg (by simp [hc]), ← hr, List.reverse_reverse]

theorem rstripDots_getLast {l : List Char} (h : rstripDots l ≠ []) :
    (rstripDots l).getLast? ≠ some '.' := by
  unfold rstripDots at *
  cases hd : l.reverse.dropWhile (fun c => c = '.') with
  | nil => rw [hd] at h; simp at h
  | cons x xs =>
    have hx : x ≠ '.' := by
      have := dropWhile_head_false hd
      simpa using this
    rw [List.getLast?_reverse]
    simp [hx]

theorem mem_rstripDots {x : Char} {l : List Char} (h : x ∈ rstripDots l) : x ∈ l := by
  unfold rstripDots at h
  rw [List.mem_reverse] at h
  have hsub : (List.dropWhile (fun c => decide (c = '.')) l.reverse).Sublist l.reverse :=
    List.dropWhile_sublist _
  have := hsub.subset h
  rwa [List.mem_reverse] at this

theorem rstripDots_eq_nil {l : List Char} (h : ∀ c ∈ l, c = '.') : rstripDots l = [] := by
  unfold rstripDots
  have : l.reverse.dropWhile (fun c => c = '.') = [] := by
    rw [List.dropWhile_eq_nil_iff]
    intro a ha
    simpa using h a (List.mem_reverse.mp ha)
  rw [this]
  rfl

theorem takeWhile_append_all {p : Char → Bool} {A B : List Char}
    (h : ∀ x ∈ A, p x = true) : (A ++ B).takeWhile p = A ++ B.takeWhile p := by
  induction A with
  | nil => simp
  | cons c t ih =>
    have hc : p c = true := h c (List.mem_cons_self c t)
    simp only [List.cons_append, List.takeWhile_cons, hc, if_true]
    rw [ih (fun x hx => h x (List.mem_cons_of_mem _ hx))]

theorem dropWhile_append_all {p : Char → Bool} {A B : List Char}
    (h : ∀ x ∈ A, p x = true) : (A ++ B).dropWhile p = B.dropWhile p := by
  induction A with
  | nil => simp
  | cons c t ih =>
    have hc : p c = true := h c (List.mem_cons_self c t)
    simp only [List.cons_append, List.dropWhile_cons, hc, if_true]
    exact ih (fun x hx => h x (List.mem_cons_of_mem _ hx))

/-! Lemmas about the truncation loop. -/

theorem utf8Len_cons (c : Char) (l : List Char) :
    utf8Len (c :: l) = charBytes c + utf8Len l := by
  simp [utf8Len]

theorem truncGoRev_some_shape {ext : List Char} :
    ∀ {rev out : List Char}, truncGoRev ext rev = some out →
      ∃ n, out = n ++ '.' :: ext ∧ n <+: rev.reverse ∧ utf8Len out ≤ 255 := by
  intro rev
  induction rev with
  | nil =>
    intro out h
    unfold truncGoRev at h
    split at h
    · cases h
      exact ⟨[], rfl, List.nil_prefix, by simpa using by assumption⟩
    · cases h
  | cons c r ih =>
    intro out h
    unfold truncGoRev at h
    simp only [] at h
    split at h
    · cases h
      exact ⟨(c :: r).reverse, rfl, List.prefix_refl _, by assumption⟩
    · obtain ⟨n, hout, hpre, hb⟩ := ih h
      refine ⟨n, hout, ?_, hb⟩
      rw [List.reverse_cons]
      exact hpre.trans (List.prefix_append _ _)

theorem truncGoRev_isSome {ext : List Char} (hext : utf8Len ext + 1 ≤ 255) :
    ∀ rev : List Char, ∃ out, truncGoRev ext rev = some out := by
  intro rev
  induction rev with
  | nil =>
    refine ⟨'.' :: ext, ?_⟩
    unfold truncGoRev
    rw [if_pos]
    rw [utf8Len_cons]
    have : charBytes '.' = 1 := by decide
    omega
  | cons c r ih =>
    unfold truncGoRev
    simp only []
    split
    · exact ⟨_, rfl⟩
    · exact ih

theorem truncGoRev_none_large {ext : List Char} (hext : 255 < utf8Len ext + 1) :
    ∀ rev : List Char, truncGoRev ext rev = none := by
  intro rev
  induction rev with
  | nil =>
    unfold truncGoRev
    rw [if_neg]
    rw [utf8Len_cons]
    have : charBytes '.' = 1 := by decide
    omega
  | cons c r ih =>
    unfold truncGoRev
    simp only []
    rw [if_neg, ih]
    rw [utf8Len_append, utf8Len_cons]
    have : charBytes '.' = 1 := by decide
    omega

theorem truncGoRev_pre {D ext : List Char} (hD : utf8Len D + 1 + utf8Len ext ≤ 255) :
    ∀ {rev : List Char}, D <+: rev.reverse →
      ∃ out, truncGoRev ext rev = some out ∧ D <+: out := by
  intro rev
  induction rev with
  | nil =>
    intro hpre
    have hDnil : D = [] := List.prefix_nil.mp (by simpa using hpre)
    subst hDnil
    refine ⟨'.' :: ext, ?_, List.nil_prefix⟩
    unfold truncGoRev
    rw [if_pos]
    rw [utf8Len_cons]
    have hdot : charBytes '.' = 1 := by decide
    have h0 : utf8Len ([] : List Char) = 0 := rfl
    omega
  | cons c r ih =>
    intro hpre
    unfold truncGoRev
    simp only []
    split
    · exact ⟨_, rfl, hpre.trans (List.prefix_append _ _)⟩
    · rename_i hnotfit
      have hbig : 255 < utf8Len (c :: r).reverse + (1 + utf8Len ext) := by
        rw [not_le] at hnotfit
        rw [utf8Len_append, utf8Len_cons] at hnotfit
        have : charBytes '.' = 1 := by decide
        omega
      have hlt : utf8Len D < utf8Len (c :: r).reverse := by omega
      have hne : D ≠ (c :: r).reverse := by
        intro hcontra
        rw [hcontra] at hlt
        omega
      have hlen : D.length ≤ r.length := by
        have h1 : D.length ≤ (c :: r).reverse.length := hpre.length_le
        simp only [List.length_reverse, List.length_cons] at h1
        rcases Nat.lt_or_ge D.length (r.length + 1) with hlt2 | hge
        · omega
        · exfalso
          apply hne
          exact hpre.eq_of_length (by simp; omega)
      apply ih
      obtain ⟨tl, htl⟩ := hpre
      have htake : r.reverse.take D.length = D := by
        have h2 : ((c :: r).reverse).take D.length = D := by
          rw [← htl]
          exact List.take_left ..
        rw [List.reverse_cons, List.take_append_of_le_length (by simpa using hlen)] at h2
        exact h2
      rw [← htake]
      exact List.take_prefix _ _

/-! Lemmas about the decimal printer. -/

theorem decAux_fuel : ∀ (f g n : Nat), n < f → n < g → decAux f n = decAux g n := by
  intro f
  induction f with
  | zero => intro g n hf hg; omega
  | succ f ih =>
    intro g n hf hg
    cases g with
    | zero => omega
    | succ g0 =>
      unfold decAux
      by_cases h10 : n < 10
      · simp [h10]
      · simp only [if_neg h10]
        have hdiv : n / 10 < n := Nat.div_lt_self (by omega) (by omega)
        rw [ih g0 (n / 10) (by omega) (by omega)]

theorem decAux_spec : ∀ (f n : Nat), n < f →
    decAux f n ≠ [] ∧ ∀ c ∈ decAux f n, ∃ d, d < 10 ∧ c = digitCh d := by
  intro f
  induction f with
  | zero => intro n h; omega
  | succ f ih =>
    intro n h
    unfold decAux
    by_cases h10 : n < 10
    · simp only [if_pos h10]
      refine ⟨by simp, ?_⟩
      intro c hc
      simp at hc
      exact ⟨n, h10, hc⟩
    · simp only [if_neg h10]
      have hdiv : n / 10 < n := Nat.div_lt_self (by omega) (by omega)
      obtain ⟨hne, hdig⟩ := ih (n / 10) (by omega)
      refine ⟨by simp, ?_⟩
      intro c hc
      rcases List.mem_append.mp hc with h1 | h2
      · exact hdig c h1
      · simp at h2
        exact ⟨n % 10, Nat.mod_lt _ (by omega), h2⟩

theorem digitCh_toNat : ∀ d, d < 10 → (digitCh d).toNat - 48 = d := by decide

theorem evalDec_decAux : ∀ (f n : Nat), n < f → evalDec (decAux f n) = n := by
  intro f
  induction f with
  | zero => intro n h; omega
  | succ f ih =>
    intro n h
    unfold decAux
    by_cases h10 : n < 10
    · simp only [if_pos h10]
      unfold evalDec
      simp only [List.foldl_cons, List.foldl_nil]
      rw [Nat.mul_zero, Nat.zero_add, digitCh_toNat n h10]
    · simp only [if_neg h10]
      have hdiv : n / 10 < n := Nat.div_lt_self (by omega) (by omega)
      unfold evalDec
      rw [List.foldl_append]
      have h1 := ih (n / 10) (by omega)
      unfold evalDec at h1
      rw [h1]
      simp only [List.foldl_cons, List.foldl_nil]
      rw [digitCh_toNat (n % 10) (Nat.mod_lt _ (by omega))]
      omega

theorem decRepr_ne_nil (n : Nat) : decRepr n ≠ [] :=
  (decAux_spec (n + 1) n (by omega)).1

theorem decRepr_digits (n : Nat) : ∀ c ∈ decRepr n, ∃ d, d < 10 ∧ c = digitCh d :=
  (decAux_spec (n + 1) n (by omega)).2

theorem evalDec_decRepr (n : Nat) : evalDec (decRepr n) = n :=
  evalDec_decAux (n + 1) n (by omega)

theorem evalDec_replicate_zero (l : List Char) (z : Nat) :
    evalDec (List.replicate z '0' ++ l) = evalDec l := by
  unfold evalDec
  rw [List.foldl_append]
  congr 1
  induction z with
  | zero => rfl
  | succ z ih => simpa [List.replicate_succ] using ih

theorem evalDec_padInt (w n : Nat) : evalDec (padInt w n) = n := by
  unfold padInt
  rw [evalDec_replicate_zero, evalDec_decRepr]

theorem padInt_inj {w a b : Nat} (h : padInt w a = padInt w b) : a = b := by
  have h2 := congrArg evalDec h
  rwa [evalDec_padInt, evalDec_padInt] at h2

theorem padInt_length {w n : Nat} (h : lenDec n ≤ w) : (padInt w n).length = w := by
  unfold padInt
  rw [List.length_append, List.length_replicate]
  unfold lenDec at *
  omega

theorem decAux_length_mono : ∀ (f m n : Nat), m ≤ n → n < f →
    (decAux f m).length ≤ (decAux f n).length := by
  intro f
  induction f with
  | zero => intro m n h hf; omega
  | succ f ih =>
    intro m n h hf
    unfold decAux
    by_cases hm : m < 10 <;> by_cases hn : n < 10
    · simp [hm, hn]
    · simp only [if_pos hm, if_neg hn, List.length_append]
      simp
    · omega
    · simp only [if_neg hm, if_neg hn, List.length_append]
      have hdiv : n / 10 < n := Nat.div_lt_self (by omega) (by omega)
      have := ih (m / 10) (n / 10) (Nat.div_le_div_right h) (by omega)
      simp only [List.length_cons, List.length_nil]
      omega

theorem lenDec_mono {m n : Nat} (h : m ≤ n) : lenDec m ≤ lenDec n := by
  unfold lenDec decRepr
  rw [decAux_fuel (m + 1) (n + 1) m (by omega) (by omega)]
  exact decAux_length_mono (n + 1) m n h (by omega)

theorem lenDec_pow_ten : ∀ k, lenDec (10 ^ k) = k + 1 := by
  intro k
  induction k with
  | zero => decide
  | succ k ih =>
    have h10 : 10 ≤ 10 ^ (k + 1) := by
      calc 10 = 10 ^ 1 := by norm_num
      _ ≤ 10 ^ (k + 1) := Nat.pow_le_pow_right (by omega) (by omega)
    have hdiv : 10 ^ (k + 1) / 10 = 10 ^ k := by
      rw [pow_succ]
      exact Nat.mul_div_cancel _ (by omega)
    have hmod : 10 ^ (k + 1) % 10 = 0 := by
      rw [pow_succ]
      exact Nat.mul_mod_left _ _
    unfold lenDec decRepr
    conv_lhs => rw [show 10 ^ (k + 1) + 1 = (10 ^ (k + 1)) + 1 from rfl]
    unfold decAux
    simp only [if_neg (by omega : ¬10 ^ (k + 1) < 10)]
    rw [hdiv, hmod]
    rw [decAux_fuel (10 ^ (k + 1)) (10 ^ k + 1) (10 ^ k)
      (by
        have hpp : (10 : Nat) ^ k < 10 ^ (k + 1) :=
          Nat.pow_lt_pow_succ (show 1 < 10 by omega)
        omega)
      (by omega)]
    unfold lenDec decRepr at ih
    simp only [List.length_append, List.length_cons, List.length_nil]
    omega

/-! Character facts for the digits and format characters. -/

theorem digitCh_allowed : ∀ d, d < 10 →
    charAllowed (digitCh d) = true ∧ charBytes (digitCh d) = 1 ∧ digitCh d ≠ '.' := by
  decide

theorem padInt_chars {w n : Nat} :
    ∀ c ∈ padInt w n, charAllowed c = true ∧ charBytes c = 1 ∧ c ≠ '.' := by
  intro c hc
  unfold padInt at hc
  rcases List.mem_append.mp hc with h1 | h2
  · have hz : c = '0' := List.eq_of_mem_replicate h1
    subst hz
    exact ⟨by decide, by decide, by decide⟩
  · obtain ⟨d, hd, hcd⟩ := decRepr_digits n c h2
    subst hcd
    exact digitCh_allowed d hd

theorem utf8Len_eq_length {l : List Char} (h : ∀ c ∈ l, charBytes c = 1) :
    utf8Len l = l.length := by
  induction l with
  | nil => rfl
  | cons c t ih =>
    rw [utf8Len_cons, h c (List.mem_cons_self c t), List.length_cons,
      ih (fun x hx => h x (List.mem_cons_of_mem _ hx))]
    omega

/-! Structural helpers for list ends. -/

theorem dropLast_append_ne {a b : List Char} (h : b ≠ []) :
    (a ++ b).dropLast = a ++ b.dropLast := by
  obtain ⟨ys, y, rfl⟩ : ∃ ys y, b = ys ++ [y] := by
    rcases List.eq_nil_or_concat b with h1 | ⟨ys, y, hy⟩
    · exact absurd h1 h
    · rw [List.concat_eq_append] at hy
      exact ⟨ys, y, hy⟩
  rw [← List.append_assoc, List.dropLast_concat, List.dropLast_concat]

theorem getLast?_append_ne {α : Type _} {a b : List α} (h : b ≠ []) :
    (a ++ b).getLast? = b.getLast? := by
  obtain ⟨ys, y, rfl⟩ : ∃ ys y, b = ys ++ [y] := by
    rcases List.eq_nil_or_concat b with h1 | ⟨ys, y, hy⟩
    · exact absurd h1 h
    · rw [List.concat_eq_append] at hy
      exact ⟨ys, y, hy⟩
  rw [← List.append_assoc, List.getLast?_concat, List.getLast?_concat]

/-- Every string either has no period or splits as everything up to the
last period, the period, and a period-free tail. -/
theorem dot_decomp (f : List Char) :
    '.' ∉ f ∨ ∃ core tail, f = core ++ '.' :: tail ∧ '.' ∉ tail := by
  cases h : splitFirst '.' f.reverse with
  | none =>
    left
    have hnm := splitFirst_eq_none.mp h
    intro hc
    exact hnm (List.mem_reverse.mpr hc)
  | some ab =>
    obtain ⟨a, b⟩ := ab
    right
    obtain ⟨heq, hna⟩ := splitFirst_eq_some h
    refine ⟨b.reverse, a.reverse, ?_, ?_⟩
    · have h2 := congrArg List.reverse heq
      rw [List.reverse_reverse] at h2
      rw [h2]
      simp
    · intro hc
      exact hna (List.mem_reverse.mp hc)

/-- Sanitizing a name of the form `D ++ rest`, where `D` is short,
period-free and fully allowed, and the allowed part of `rest` is a
nonempty core followed by `.xhtml`, succeeds and keeps `D` as a prefix
of the result (truncation eats from the far end only). -/
theorem make_filename_pre {D rest : List Char}
    (hDa : ∀ c ∈ D, charAllowed c = true)
    (hDb : utf8Len D ≤ 249)
    (hcore : ∃ mid, rest.filter charAllowed = mid ++ '.' :: ("xhtml".data) ∧ mid ≠ []) :
    ∃ tail, make_filename_valid_for_epub3 (D ++ rest) = .ok (D ++ tail) := by
  obtain ⟨mid, hmid, hmid_ne⟩ := hcore
  have hfilter : (D ++ rest).filter charAllowed = D ++ (mid ++ '.' :: ("xhtml".data)) := by
    rw [List.filter_append, List.filter_eq_self.mpr hDa, hmid]
  have hlast : (D ++ (mid ++ '.' :: ("xhtml".data))).getLast? = some 'l' := by
    rw [getLast?_append_ne (by simp), getLast?_append_ne (by simp)]
    decide
  have hrstrip : rstripDots ((D ++ rest).filter charAllowed) =
      D ++ (mid ++ '.' :: ("xhtml".data)) := by
    rw [hfilter]
    exact rstripDots_eq_self (by rw [hlast]; decide)
  have hne : D ++ (mid ++ '.' :: ("xhtml".data)) ≠ [] := by simp
  simp only [make_filename_valid_for_epub3]
  rw [hrstrip, if_neg hne]
  by_cases hb : utf8Len (D ++ (mid ++ '.' :: ("xhtml".data))) ≤ 255
  · rw [if_pos hb]
    exact ⟨mid ++ '.' :: ("xhtml".data), rfl⟩
  · rw [if_neg hb]
    have hassoc : D ++ (mid ++ '.' :: ("xhtml".data)) = (D ++ mid) ++ '.' :: ("xhtml".data) := by
      rw [List.append_assoc]
    have hsplit : pySplit '.' (D ++ (mid ++ '.' :: ("xhtml".data))) =
        pySplit '.' (D ++ mid) ++ [("xhtml".data)] := by
      rw [hassoc, pySplit_append_sep, pySplit_not_mem '.' ("xhtml".data) (by decide)]
    rw [hsplit]
    rw [List.getLastD_concat, List.dropLast_concat]
    have hx5 : utf8Len ("xhtml".data) = 5 := by decide
    rw [if_neg (by omega)]
    rw [pyJoin_pySplit, dropLast_append_ne hmid_ne]
    have hpre0 : D <+: ((D ++ mid.dropLast).reverse).reverse := by
      rw [List.reverse_reverse]
      exact List.prefix_append _ _
    obtain ⟨out, hsome, hpre⟩ :=
      @truncGoRev_pre D ("xhtml".data) (by omega) ((D ++ mid.dropLast).reverse) hpre0
    unfold truncLoop
    rw [hsome]
    obtain ⟨tail, htail⟩ := hpre
    exact ⟨tail, by rw [← htail]⟩

theorem mem_of_getLast? {l : List Char} {y : Char} (h : l.getLast? = some y) : y ∈ l := by
  rcases List.eq_nil_or_concat l with h1 | ⟨ys, y2, hy⟩
  · subst h1; cases h
  · rw [List.concat_eq_append] at hy
    subst hy
    rw [List.getLast?_concat] at h
    injection h with h2
    subst h2
    simp

/-- Case analysis of every `ok` return of the sanitizer: the returned
name is fully allowed, does not end in a period, and fits in 255
bytes. -/
theorem sanitizer_ok_cases {s out : List Char}
    (hout : make_filename_valid_for_epub3 s = .ok out) :
    (∀ c ∈ out, charAllowed c = true) ∧ out.getLast? ≠ some '.' ∧ utf8Len out ≤ 255 := by
  simp only [make_filename_valid_for_epub3] at hout
  have hFa : ∀ c ∈ rstripDots (s.filter charAllowed), charAllowed c = true := by
    intro c hc
    exact (List.mem_filter.mp (mem_rstripDots hc)).2
  by_cases h0 : rstripDots (s.filter charAllowed) = []
  · rw [if_pos h0] at hout; simp at hout
  · rw [if_neg h0] at hout
    by_cases h255 : utf8Len (rstripDots (s.filter charAllowed)) ≤ 255
    · rw [if_pos h255] at hout
      injection hout with hFo
      subst hFo
      exact ⟨hFa, rstripDots_getLast h0, h255⟩
    · rw [if_neg h255] at hout
      rcases dot_decomp (rstripDots (s.filter charAllowed)) with hnodot |
        ⟨core, tail, hFeq, htaildot⟩
      · rw [pySplit_not_mem _ _ hnodot] at hout
        simp only [List.getLastD_cons, List.getLastD_nil] at hout
        rw [if_pos (by omega)] at hout
        simp at hout
      · have htail_ne : tail ≠ [] := by
          intro hte
          subst hte
          have hgl := rstripDots_getLast h0
          rw [hFeq] at hgl
          apply hgl
          rw [getLast?_append_ne (by simp)]
          rfl
        rw [hFeq, pySplit_append_sep, pySplit_not_mem _ _ htaildot] at hout
        rw [List.getLastD_concat, List.dropLast_concat, pyJoin_pySplit] at hout
        by_cases ht255 : 255 < utf8Len tail
        · rw [if_pos ht255] at hout; simp at hout
        · rw [if_neg ht255] at hout
          unfold truncLoop at hout
          cases htr : truncGoRev tail core.dropLast.reverse with
          | none => rw [htr] at hout; simp at hout
          | some out2 =>
            rw [htr] at hout
            injection hout with hout2
            subst hout2
            obtain ⟨n, hshape, hpre, hbytes⟩ := truncGoRev_some_shape htr
            rw [List.reverse_reverse] at hpre
            refine ⟨?_, ?_, hbytes⟩
            · intro c hc
              rw [hshape] at hc
              rcases List.mem_append.mp hc with hn | hdot
              · have h1 : c ∈ core.dropLast := hpre.subset hn
                have h2 : c ∈ core := (List.dropLast_sublist core).subset h1
                have h3 : c ∈ rstripDots (s.filter charAllowed) := by
                  rw [hFeq]
                  exact List.mem_append.mpr (Or.inl h2)
                exact hFa c h3
              · rcases List.mem_cons.mp hdot with hceq | hct
                · subst hceq; decide
                · have h3 : c ∈ rstripDots (s.filter charAllowed) := by
                    rw [hFeq]
                    exact List.mem_append.mpr (Or.inr (List.mem_cons_of_mem _ hct))
                  exact hFa c h3
            · rw [hshape, getLast?_append_ne (by simp),
                show ('.' :: tail) = ['.'] ++ tail from rfl, getLast?_append_ne htail_ne]
              cases htl : tail.getLast? with
              | none => simp
              | some y =>
                have hy : y ∈ tail := mem_of_getLast? htl
                intro hcontra
                injection hcontra with hyc
                subst hyc
                exact htaildot hy

theorem sanitizer_all_banned {s : List Char}
    (hall : ∀ c ∈ s, charAllowed c = false ∨ c = '.') :
    make_filename_valid_for_epub3 s = .invalidName := by
  have hfc : ∀ c ∈ s.filter charAllowed, c = '.' := by
    intro c hc
    obtain ⟨hmem, hal⟩ := List.mem_filter.mp hc
    rcases hall c hmem with hf | hd
    · rw [hal] at hf; cases hf
    · exact hd
  have h0 : rstripDots (s.filter charAllowed) = [] := rstripDots_eq_nil hfc
  simp only [make_filename_valid_for_epub3]
  rw [if_pos h0]

/-- Claim C5: on every input on which the filename sanitizer returns, the
returned name contains no banned character, does not end in a period,
and its UTF-8 length is at most 255 bytes; and every input consisting
only of banned characters and/or periods fails with the
invalid-name error. -/
theorem claim_C5_sanitizer (s : List Char) :
    (∀ out, make_filename_valid_for_epub3 s = .ok out →
      (∀ c ∈ out, charAllowed c = true) ∧ out.getLast? ≠ some '.' ∧ utf8Len out ≤ 255) ∧
    ((∀ c ∈ s, charAllowed c = false ∨ c = '.') →
      make_filename_valid_for_epub3 s = .invalidName) :=
  ⟨fun _ hout => sanitizer_ok_cases hout, sanitizer_all_banned⟩

/-- Witness for C5: the input `a<b>.` sanitizes to `ab` (allowed, not
period-final, short), and the all-banned input `::.` fails with the
invalid-name error. -/
theorem claim_C5_sanitizer_witness :
    ((∀ c ∈ ("ab".data), charAllowed c = true) ∧
      ("ab".data).getLast? ≠ some '.' ∧ utf8Len ("ab".data) ≤ 255) ∧
    make_filename_valid_for_epub3 ("::.".data) = .invalidName :=
  ⟨(claim_C5_sanitizer ("a<b>.".data)).1 ("ab".data) (by decide),
   (claim_C5_sanitizer ("::.".data)).2 (by decide)⟩

set_option maxRecDepth 4000 in
/-- Counterexample to C6 as stated: `c6DivergeInput` has a filtered name
over 255 bytes and an extension segment of (at most, in fact exactly)
255 bytes, yet the sanitizer does not terminate — the truncation loop
never reaches a fitting name, because even the empty name plus `.` plus
the 255-byte extension occupies 256 bytes. -/
theorem claim_C6_counterexample :
    255 < utf8Len (filteredName c6DivergeInput) ∧
    utf8Len (extSeg c6DivergeInput) ≤ 255 ∧
    make_filename_valid_for_epub3 c6DivergeInput = .diverge := by decide

/-- Claim C6 (amended): the sanitizer terminates with a result (ok,
invalid-name, or extension-too-long) for every input except exactly
those whose filtered name exceeds 255 UTF-8 bytes while the final
extension segment is exactly 255 bytes; on those the truncation loop
runs forever.  In particular it terminates whenever the extension
segment is at most 254 bytes. -/
theorem claim_C6_termination (s : List Char) :
    make_filename_valid_for_epub3 s = .diverge ↔
      255 < utf8Len (filteredName s) ∧ utf8Len (extSeg s) = 255 := by
  unfold extSeg filteredName
  simp only [make_filename_valid_for_epub3]
  by_cases h0 : rstripDots (s.filter charAllowed) = []
  · rw [if_pos h0]
    constructor
    · intro h; simp at h
    · rintro ⟨h1, h2⟩
      rw [h0] at h1
      exact absurd h1 (by decide)
  · rw [if_neg h0]
    by_cases h255 : utf8Len (rstripDots (s.filter charAllowed)) ≤ 255
    · rw [if_pos h255]
      constructor
      · intro h; simp at h
      · rintro ⟨h1, h2⟩; omega
    · rw [if_neg h255]
      by_cases hext :
          255 < utf8Len ((pySplit '.' (rstripDots (s.filter charAllowed))).getLastD [])
      · rw [if_pos hext]
        constructor
        · intro h; simp at h
        · rintro ⟨h1, h2⟩; omega
      · rw [if_neg hext]
        unfold truncLoop
        cases htr : truncGoRev ((pySplit '.' (rstripDots (s.filter charAllowed))).getLastD [])
            (((pyJoin '.' (pySplit '.' (rstripDots (s.filter charAllowed))).dropLast).dropLast).reverse) with
        | some o =>
          constructor
          · intro h; simp at h
          · rintro ⟨h1, h2⟩
            have hn : truncGoRev
                ((pySplit '.' (rstripDots (s.filter charAllowed))).getLastD [])
                (((pyJoin '.' (pySplit '.' (rstripDots (s.filter charAllowed))).dropLast).dropLast).reverse) =
                none := truncGoRev_none_large (by omega) _
            rw [hn] at htr
            cases htr
        | none =>
          constructor
          · intro _
            refine ⟨by omega, ?_⟩
            by_cases hle :
                utf8Len ((pySplit '.' (rstripDots (s.filter charAllowed))).getLastD []) + 1 ≤ 255
            · obtain ⟨o, ho⟩ := @truncGoRev_isSome
                ((pySplit '.' (rstripDots (s.filter charAllowed))).getLastD []) (by omega)
                (((pyJoin '.' (pySplit '.' (rstripDots (s.filter charAllowed))).dropLast).dropLast).reverse)
              rw [ho] at htr
              cases htr
            · omega
          · intro _; rfl

/-! The section splitter: claims C1 and C2. -/

theorem sum_pos_ne_nil {l : List RenderedPost}
    (hpos : ∀ p ∈ l, 0 < utf8Len p.html)
    (hsum : (l.map (fun p => utf8Len p.html)).sum = 0) : l = [] := by
  cases l with
  | nil => rfl
  | cons p t =>
    exfalso
    have hp := hpos p (List.mem_cons_self p t)
    simp only [List.map_cons, List.sum_cons] at hsum
    omega

theorem render_posts_loop_sizes :
    ∀ (rest : List RenderedPost) (out : Section),
      (∀ p ∈ rest, 0 < utf8Len p.html) →
      (∀ p ∈ out.posts, 0 < utf8Len p.html) →
      out.size = (out.posts.map (fun p => utf8Len p.html)).sum →
      (out.size ≤ SECTION_SIZE_LIMIT ∨ out.posts.length = 1) →
      ∀ sec ∈ render_posts_loop out rest,
        sec.size ≤ SECTION_SIZE_LIMIT ∨ sec.posts.length = 1 := by
  intro rest
  induction rest with
  | nil =>
    intro out hrest hposts hsum hinv sec hsec
    simp only [render_posts_loop, List.mem_singleton] at hsec
    subst hsec
    exact hinv
  | cons p rest ih =>
    intro out hrest hposts hsum hinv sec hsec
    simp only [render_posts_loop] at hsec
    split at hsec
    · rcases List.mem_cons.mp hsec with hsec1 | hsec2
      · subst hsec1
        exact hinv
      · refine ih (Section.empty.append p) (fun q hq => hrest q (List.mem_cons_of_mem _ hq))
          ?_ ?_ ?_ sec hsec2
        · intro q hq
          simp only [Section.empty, Section.append, List.nil_append, List.mem_singleton] at hq
          subst hq
          exact hrest q (List.mem_cons_self _ _)
        · simp [Section.empty, Section.append]
        · right
          simp [Section.empty, Section.append]
    · rename_i hcond
      refine ih (out.append p) (fun q hq => hrest q (List.mem_cons_of_mem _ hq))
        ?_ ?_ ?_ sec hsec
      · intro q hq
        simp only [Section.append] at hq
        rcases List.mem_append.mp hq with h1 | h2
        · exact hposts q h1
        · rw [List.mem_singleton] at h2
          subst h2
          exact hrest q (List.mem_cons_self _ _)
      · simp only [Section.append, List.map_append, List.sum_append, List.map_cons,
          List.sum_cons, List.map_nil, List.sum_nil]
        omega
      · rw [Decidable.not_and_iff_or_not] at hcond
        rcases hcond with h1 | h2
        · left
          simp only [Section.append]
          omega
        · right
          have hz : out.size = 0 := by omega
          rw [hz] at hsum
          have hnil := sum_pos_ne_nil hposts hsum.symm
          simp [Section.append, hnil]

/-- Claim C1: every section produced by the splitter either has size at
most `SECTION_SIZE_LIMIT` or contains exactly one post.  The hypothesis
that every rendered post serializes to at least one byte always holds in
the source, where each `post.html` is a nonempty
`<div class="post">...</div>` fragment. -/
theorem claim_C1_section_size (posts : List RenderedPost)
    (hpos : ∀ p ∈ posts, 0 < utf8Len p.html) :
    ∀ sec ∈ render_posts posts, sec.size ≤ SECTION_SIZE_LIMIT ∨ sec.posts.length = 1 := by
  unfold render_posts
  exact render_posts_loop_sizes posts Section.empty hpos
    (by simp [Section.empty]) (by simp [Section.empty])
    (Or.inl (by simp [Section.empty, SECTION_SIZE_LIMIT]))

/-- Witness for C1: a one-byte rendered post. -/
theorem claim_C1_section_size_witness :
    (∀ p ∈ [(⟨['a'], none, [], []⟩ : RenderedPost)], 0 < utf8Len p.html) ∧
    ∀ sec ∈ render_posts [(⟨['a'], none, [], []⟩ : RenderedPost)],
      sec.size ≤ SECTION_SIZE_LIMIT ∨ sec.posts.length = 1 :=
  ⟨by decide, claim_C1_section_size _ (by decide)⟩

theorem render_posts_loop_join :
    ∀ (rest : List RenderedPost) (out : Section),
      ((render_posts_loop out rest).map Section.posts).flatten = out.posts ++ rest := by
  intro rest
  induction rest with
  | nil =>
    intro out
    simp [render_posts_loop]
  | cons p rest ih =>
    intro out
    simp only [render_posts_loop]
    split
    · simp only [List.map_cons, List.flatten_cons, ih]
      simp [Section.empty, Section.append]
    · rw [ih]
      simp [Section.append]

/-- Claim C2: concatenating the posts of the sections produced by the
splitter, in order, yields exactly the original rendered post list, with
no omission and no duplication. -/
theorem claim_C2_sections_concat (posts : List RenderedPost) :
    ((render_posts posts).map Section.posts).flatten = posts := by
  unfold render_posts
  rw [render_posts_loop_join]
  simp [Section.empty]

/-! Lemmas about the URL parsing steps. -/

theorem head?_append_ne {f X : List Char} (h : f ≠ []) : (f ++ X).head? = f.head? := by
  cases f with
  | nil => exact absurd rfl h
  | cons c t => rfl

theorem take_two_ne_dslash {f : List Char} (hh : f.head? ≠ some '/') :
    f.take 2 ≠ ['/', '/'] := by
  cases f with
  | nil => simp
  | cons c t =>
    intro hc
    rw [List.take_cons (by omega)] at hc
    injection hc with h1 h2
    exact hh (by rw [h1]; rfl)

theorem splitFragment_not_mem {l : List Char} (h : '#' ∉ l) : splitFragment l = (l, []) := by
  unfold splitFragment
  rw [splitFirst_not_mem _ _ h]

theorem splitFragment_append {a b : List Char} (h : '#' ∉ a) :
    splitFragment (a ++ '#' :: b) = (a, b) := by
  unfold splitFragment
  rw [splitFirst_append_sep _ _ _ h]

theorem splitFragment_fst_no_hash (l : List Char) : '#' ∉ (splitFragment l).1 := by
  unfold splitFragment
  cases h : splitFirst '#' l with
  | none => exact splitFirst_eq_none.mp h
  | some ab =>
    obtain ⟨a, b⟩ := ab
    exact (splitFirst_eq_some h).2

theorem splitQuery_not_mem {l : List Char} (h : '?' ∉ l) : splitQuery l = (l, []) := by
  unfold splitQuery
  rw [splitFirst_not_mem _ _ h]

theorem splitQuery_append {a b : List Char} (h : '?' ∉ a) :
    splitQuery (a ++ '?' :: b) = (a, b) := by
  unfold splitQuery
  rw [splitFirst_append_sep _ _ _ h]

theorem splitQuery_snd_subset {l : List Char} {x : Char} (h : x ∈ (splitQuery l).2) :
    x ∈ l := by
  unfold splitQuery at h
  cases hs : splitFirst '?' l with
  | none => rw [hs] at h; simp at h
  | some ab =>
    obtain ⟨a, b⟩ := ab
    rw [hs] at h
    obtain ⟨heq, _⟩ := splitFirst_eq_some hs
    rw [heq]
    simp only [] at h
    exact List.mem_append.mpr (Or.inr (List.mem_cons_of_mem _ h))

theorem splitNetloc_not_dslash {l : List Char} (h : l.take 2 ≠ ['/', '/']) :
    splitNetloc l = ([], l) := by
  unfold splitNetloc
  split
  · rename_i r
    exact absurd rfl h
  · rfl

theorem parseScheme_no_colon {l : List Char} (h : ':' ∉ l) : parseScheme l = ([], l) := by
  unfold parseScheme
  rw [splitFirst_not_mem _ _ h]

theorem parseScheme_slash (t : List Char) : parseScheme ('/' :: t) = ([], '/' :: t) := by
  unfold parseScheme
  cases hsp : splitFirst ':' ('/' :: t) with
  | none => rfl
  | some ab =>
    obtain ⟨a, b⟩ := ab
    obtain ⟨heq, hna⟩ := splitFirst_eq_some hsp
    cases a with
    | nil =>
      exfalso
      rw [List.nil_append] at heq
      injection heq with h1 h2
      cases h1
    | cons c a0 =>
      rw [List.cons_append] at heq
      injection heq with h1 h2
      have hcond : (isAsciiAlpha c && (c :: a0).all schemeChar) = false := by
        rw [show c = '/' from h1.symm,
          show isAsciiAlpha '/' = false from by decide, Bool.false_and]
      simp only []
      rw [hcond]
      rw [if_neg (by simp)]

theorem parseScheme_https (rest : List Char) :
    parseScheme (("https:".data) ++ rest) = (("https".data), rest) := by
  unfold parseScheme
  rw [show ("https:".data) ++ rest = ("https".data) ++ ':' :: rest from rfl,
    splitFirst_append_sep ':' _ _ (by decide)]
  rfl

/-- The scheme-recognition step never fires when the candidate prefix is
a period-, hash- and colon-free name followed by nothing, a query or a
fragment: the first colon (if any) then lies past a character that is
not a scheme character. -/
theorem parseScheme_append_qf {f R : List Char} (hf : ':' ∉ f)
    (hR : R = [] ∨ (∃ t, R = '?' :: t) ∨ (∃ t, R = '#' :: t)) :
    parseScheme (f ++ R) = ([], f ++ R) := by
  unfold parseScheme
  cases hsp : splitFirst ':' (f ++ R) with
  | none => rfl
  | some ab =>
    obtain ⟨a, b⟩ := ab
    obtain ⟨heq, hna⟩ := splitFirst_eq_some hsp
    have hlen : f.length ≤ a.length := by
      by_contra hlt
      push_neg at hlt
      apply hf
      have hf_take : f = a ++ ':' :: b.take (f.length - a.length - 1) := by
        have h1 : f = (f ++ R).take f.length := by simp
        rw [heq] at h1
        rw [List.take_append_eq_append_take] at h1
        rw [List.take_of_length_le (by omega)] at h1
        rw [List.take_cons (by omega)] at h1
        exact h1
      rw [hf_take]
      exact List.mem_append.mpr (Or.inr (List.mem_cons_self _ _))
    have ha : a = f ++ R.take (a.length - f.length) := by
      have h1 : a = (f ++ R).take a.length := by
        rw [heq]
        simp
      rw [List.take_append_eq_append_take, List.take_of_length_le hlen] at h1
      exact h1
    by_cases hEq : a.length = f.length
    · have haf : a = f := by rw [ha, hEq]; simp
      rcases hR with rfl | ⟨t, rfl⟩ | ⟨t, rfl⟩
      · exfalso
        rw [List.append_nil] at heq
        rw [haf] at heq
        have : f.length = f.length + 1 + b.length := by
          conv_lhs => rw [heq]
          simp
          omega
        omega
      · exfalso
        rw [haf] at heq
        have h2 := List.append_cancel_left heq
        injection h2 with h3 h4
        cases h3
      · exfalso
        rw [haf] at heq
        have h2 := List.append_cancel_left heq
        injection h2 with h3 h4
        cases h3
    · have hlt : f.length < a.length := by omega
      have hbad : ∃ c t2, a = f ++ c :: t2 ∧ schemeChar c = false := by
        rcases hR with rfl | ⟨t, rfl⟩ | ⟨t, rfl⟩
        · exfalso
          rw [List.append_nil] at heq
          have : a.length ≤ f.length := by
            have h1 := congrArg List.length heq
            simp at h1
            omega
          omega
        · set k := a.length - f.length with hkdef
          refine ⟨'?', t.take (k - 1), ?_, by decide⟩
          rw [ha]
          congr 1
          rw [List.take_cons (by omega)]
        · set k := a.length - f.length with hkdef
          refine ⟨'#', t.take (k - 1), ?_, by decide⟩
          rw [ha]
          congr 1
          rw [List.take_cons (by omega)]
      obtain ⟨c, t2, haeq, hcbad⟩ := hbad
      cases hae : a with
      | nil => rfl
      | cons c0 a0 =>
        have hall : ((c0 :: a0).all schemeChar) = false := by
          rw [← hae, haeq]
          apply List.all_eq_false.mpr
          exact ⟨c, List.mem_append.mpr (Or.inr (List.mem_cons_self _ _)), by simp [hcbad]⟩
        simp only []
        rw [hall, Bool.and_false]
        rw [if_neg (by simp)]

theorem replyMatch_structure {raw : List Char} (h : replyMatch raw = true) :
    ∃ t, raw = '/' :: t ∧ t.head? ≠ some '/' := by
  unfold replyMatch at h
  rw [Bool.or_eq_true] at h
  rcases h with h | h
  · rw [List.isPrefixOf_iff_prefix] at h
    obtain ⟨t2, ht⟩ := h
    exact ⟨("replies/".data) ++ t2, by rw [← ht]; rfl, by rw [head?_append_ne (by decide)]; decide⟩
  · rw [List.isPrefixOf_iff_prefix] at h
    obtain ⟨t2, ht⟩ := h
    exact ⟨("posts/".data) ++ t2, by rw [← ht]; rfl, by rw [head?_append_ne (by decide)]; decide⟩

theorem urlsplitM_slash_parts {t : List Char} (h2 : t.head? ≠ some '/') :
    (urlsplitM ('/' :: t)).scheme = [] ∧ (urlsplitM ('/' :: t)).netloc = [] := by
  have hps := parseScheme_slash t
  have htk : ('/' :: t).take 2 ≠ ['/', '/'] := by
    cases t with
    | nil => simp
    | cons c t0 =>
      have hform : ('/' :: c :: t0).take 2 = ['/', c] := rfl
      rw [hform]
      intro hc
      injection hc with hh1 hh2
      injection hh2 with hh3 hh4
      exact h2 (by rw [hh3]; rfl)
  have hnl := splitNetloc_not_dslash htk
  constructor
  · simp [urlsplitM, hps]
  · simp [urlsplitM, hps, hnl]

theorem urlsplitM_query_no_hash (url : List Char) : '#' ∉ (urlsplitM url).query := by
  intro hmem
  simp only [urlsplitM] at hmem
  have h1 := splitQuery_snd_subset hmem
  exact splitFragment_fst_no_hash _ h1

theorem urlunsplitM_plain {f q g : List Char} (hh : f.head? ≠ some '/') :
    urlunsplitM ⟨[], [], f, q, g⟩ =
      f ++ (if q = [] then [] else '?' :: q) ++ (if g = [] then [] else '#' :: g) := by
  have hcond : ¬(¬f = [] ∧ List.take 2 f = ['/', '/']) := fun hc => take_two_ne_dslash hh hc.2
  simp only [urlunsplitM, ne_eq]
  by_cases hq : q = [] <;> by_cases hg : g = [] <;>
    simp [hq, hg, if_neg hcond, List.append_assoc]

theorem urlsplitM_plain {f q g : List Char}
    (hne : f ≠ []) (hh : f.head? ≠ some '/') (h1 : '#' ∉ f) (h2 : '?' ∉ f)
    (h3 : ':' ∉ f) (hqh : '#' ∉ q) :
    urlsplitM (f ++ (if q = [] then [] else '?' :: q) ++ (if g = [] then [] else '#' :: g)) =
      ⟨[], [], f, q, g⟩ := by
  have hfhead : ∀ X : List Char, (f ++ X).head? ≠ some '/' := by
    intro X
    rw [head?_append_ne hne]
    exact hh
  by_cases hq : q = [] <;> by_cases hg : g = []
  · subst hq; subst hg
    simp only [if_pos rfl, List.append_nil]
    have hps := parseScheme_no_colon h3
    have hnl := splitNetloc_not_dslash (take_two_ne_dslash hh)
    have hfr := splitFragment_not_mem h1
    have hqu := splitQuery_not_mem h2
    simp [urlsplitM, hps, hnl, hfr, hqu]
  · subst hq
    simp only [if_pos rfl, List.append_nil, if_neg hg]
    have hps := parseScheme_append_qf h3 (Or.inr (Or.inr ⟨g, rfl⟩))
    have hnl := splitNetloc_not_dslash (take_two_ne_dslash (hfhead ('#' :: g)))
    have hfr := @splitFragment_append f g h1
    have hqu := splitQuery_not_mem h2
    simp [urlsplitM, hps, hnl, hfr, hqu]
  · subst hg
    simp only [if_neg hq, if_pos rfl, List.append_nil]
    have hps := parseScheme_append_qf h3 (Or.inr (Or.inl ⟨q, rfl⟩))
    have hnl := splitNetloc_not_dslash (take_two_ne_dslash (hfhead ('?' :: q)))
    have hfq : '#' ∉ f ++ '?' :: q := by
      intro hc
      rcases List.mem_append.mp hc with hc1 | hc2
      · exact h1 hc1
      · rcases List.mem_cons.mp hc2 with hc3 | hc4
        · cases hc3
        · exact hqh hc4
    have hfr := splitFragment_not_mem hfq
    have hqu := @splitQuery_append f q h2
    simp [urlsplitM, hps, hnl, hfr, hqu]
  · simp only [if_neg hq, if_neg hg]
    have hassoc : f ++ '?' :: q ++ '#' :: g = f ++ '?' :: (q ++ '#' :: g) := by simp
    rw [hassoc]
    have hps := parseScheme_append_qf h3 (Or.inr (Or.inl ⟨q ++ '#' :: g, rfl⟩))
    have hnl := splitNetloc_not_dslash (take_two_ne_dslash (hfhead ('?' :: (q ++ '#' :: g))))
    have hfq : '#' ∉ f ++ '?' :: q := by
      intro hc
      rcases List.mem_append.mp hc with hc1 | hc2
      · exact h1 hc1
      · rcases List.mem_cons.mp hc2 with hc3 | hc4
        · cases hc3
        · exact hqh hc4
    have hfr : splitFragment (f ++ '?' :: (q ++ '#' :: g)) = (f ++ '?' :: q, g) := by
      rw [show f ++ '?' :: (q ++ '#' :: g) = (f ++ '?' :: q) ++ '#' :: g by simp]
      exact splitFragment_append hfq
    have hqu := @splitQuery_append f q h2
    simp [urlsplitM, hps, hnl, hfr, hqu]

theorem getLastD_append_ne {α : Type _} {a b : List α} {d : α} (h : b ≠ []) :
    (a ++ b).getLastD d = b.getLastD d := by
  obtain ⟨ys, y, rfl⟩ : ∃ ys y, b = ys ++ [y] := by
    rcases List.eq_nil_or_concat b with h1 | ⟨ys, y, hy⟩
    · exact absurd h1 h
    · rw [List.concat_eq_append] at hy
      exact ⟨ys, y, hy⟩
  rw [← List.append_assoc, List.getLastD_concat, List.getLastD_concat]

theorem urlsplitM_glowfic_slash (rest : List Char) (hq : '?' ∉ rest) (hh : '#' ∉ rest) :
    urlsplitM (("https://glowfic.com/".data) ++ rest) =
      ⟨("https".data), ("glowfic.com".data), '/' :: rest, [], []⟩ := by
  have hps : parseScheme (("https://glowfic.com/".data) ++ rest) =
      (("https".data), ("//glowfic.com/".data) ++ rest) := by
    rw [show ("https://glowfic.com/".data) ++ rest =
        ("https:".data) ++ (("//glowfic.com/".data) ++ rest) from rfl]
    exact parseScheme_https _
  have hnd : ∀ x ∈ ("glowfic.com".data), (fun c => !netlocDelim c) x = true := by decide
  have htw : (("glowfic.com/".data) ++ rest).takeWhile (fun c => !netlocDelim c) =
      ("glowfic.com".data) := by
    rw [show ("glowfic.com/".data) ++ rest = ("glowfic.com".data) ++ '/' :: rest from rfl]
    rw [takeWhile_append_all hnd, List.takeWhile_cons]
    simp [netlocDelim]
  have hdw : (("glowfic.com/".data) ++ rest).dropWhile (fun c => !netlocDelim c) =
      '/' :: rest := by
    rw [show ("glowfic.com/".data) ++ rest = ("glowfic.com".data) ++ '/' :: rest from rfl]
    rw [dropWhile_append_all hnd, List.dropWhile_cons]
    simp [netlocDelim]
  have hnl : splitNetloc (("//glowfic.com/".data) ++ rest) =
      (("glowfic.com".data), '/' :: rest) := by
    show ((("glowfic.com/".data) ++ rest).takeWhile (fun c => !netlocDelim c),
      (("glowfic.com/".data) ++ rest).dropWhile (fun c => !netlocDelim c)) = _
    rw [htw, hdw]
  have hfr : splitFragment ('/' :: rest) = ('/' :: rest, []) := by
    apply splitFragment_not_mem
    intro hc
    rcases List.mem_cons.mp hc with h1 | h2
    · cases h1
    · exact hh h2
  have hqu : splitQuery ('/' :: rest) = ('/' :: rest, []) := by
    apply splitQuery_not_mem
    intro hc
    rcases List.mem_cons.mp hc with h1 | h2
    · cases h1
    · exact hq h2
  simp only [urlsplitM]
  rw [hps]
  dsimp only
  rw [hnl]
  dsimp only
  rw [hfr]
  dsimp only
  rw [hqu]

/-- Counterexample to C8 as stated: for the permalink
`https://glowfic.com/posts/9?page=2` (empty fragment), the code computes
`"post-" + permalink.split("/")[-1] = "post-9?page=2"`, while the
claim's reading — the numeric identifier from the last PATH segment —
gives `post-9`. -/
theorem claim_C8_counterexample :
    postAnchor c8CexPermalink ≠ postAnchorSpec c8CexPermalink ∧
    postAnchor c8CexPermalink = ("post-9?page=2".data) ∧
    postAnchorSpec c8CexPermalink = ("post-9".data) := by decide

/-- Claim C8 (amended): the anchor of a rendered post equals the
fragment of the parsed permalink when that fragment is nonempty, and
otherwise equals `post-` followed by the part of the RAW permalink
string after its final slash; the latter agrees with the claim's
last-path-segment reading for every permalink of the form
`https://glowfic.com/<path>` containing no `?` and no `#`. -/
theorem claim_C8_anchor (p rest : List Char) :
    ((urlsplitM p).fragment ≠ [] → postAnchor p = (urlsplitM p).fragment) ∧
    ('?' ∉ rest → '#' ∉ rest →
      postAnchor (("https://glowfic.com/".data) ++ rest) =
        postAnchorSpec (("https://glowfic.com/".data) ++ rest)) := by
  constructor
  · intro hf
    unfold postAnchor
    rw [if_neg hf]
  · intro hq hh
    have hu := urlsplitM_glowfic_slash rest hq hh
    unfold postAnchor postAnchorSpec
    rw [hu]
    dsimp only
    rw [if_pos rfl, if_pos rfl]
    congr 1
    rw [show ("https://glowfic.com/".data) ++ rest =
        ("https://glowfic.com".data) ++ '/' :: rest from rfl]
    rw [pySplit_append_sep]
    rw [show ('/' :: rest) = ([] : List Char) ++ '/' :: rest from rfl, pySplit_append_sep]
    rw [getLastD_append_ne (pySplit_ne_nil '/' rest), getLastD_append_ne (pySplit_ne_nil '/' rest)]

/-- Witness for C8: a permalink with fragment uses the fragment, and a
query-free fragment-free permalink matches the last-path-segment
reading. -/
theorem claim_C8_anchor_witness :
    postAnchor (("https://glowfic.com/replies/17#reply-17".data)) =
      (urlsplitM (("https://glowfic.com/replies/17#reply-17".data))).fragment ∧
    postAnchor (("https://glowfic.com/".data) ++ ("posts/9".data)) =
      postAnchorSpec (("https://glowfic.com/".data) ++ ("posts/9".data)) :=
  ⟨(claim_C8_anchor (("https://glowfic.com/replies/17#reply-17".data)) []).1 (by decide),
   (claim_C8_anchor [] ("posts/9".data)).2 (by decide) (by decide)⟩

theorem urlunsplitM_glowfic (p q g : List Char) :
    urlunsplitM ⟨("https".data), ("glowfic.com".data), p, q, g⟩ =
      ("https".data) ++ ':' :: '/' :: '/' :: (("glowfic.com".data) ++
        ((if p = [] then [] else if p.head? = some '/' then p else '/' :: p) ++
         (if q = [] then [] else '?' :: q) ++ (if g = [] then [] else '#' :: g))) := by
  simp only [urlunsplitM, ne_eq]
  by_cases hp : p = [] <;> by_cases hph : p.head? = some '/' <;>
    by_cases hq : q = [] <;> by_cases hg : g = [] <;>
    simp [hp, hph, hq, hg, List.append_assoc]

theorem urlsplitM_https_glowfic_tail (TAIL : List Char)
    (hT : TAIL = [] ∨ ∃ c t, TAIL = c :: t ∧ netlocDelim c = true) :
    (urlsplitM (("https".data) ++ ':' :: '/' :: '/' :: (("glowfic.com".data) ++ TAIL))).scheme =
      ("https".data) ∧
    (urlsplitM (("https".data) ++ ':' :: '/' :: '/' :: (("glowfic.com".data) ++ TAIL))).netloc =
      ("glowfic.com".data) := by
  have hps : parseScheme (("https".data) ++ ':' :: '/' :: '/' :: (("glowfic.com".data) ++ TAIL)) =
      (("https".data), '/' :: '/' :: (("glowfic.com".data) ++ TAIL)) := by
    rw [show ("https".data) ++ ':' :: '/' :: '/' :: (("glowfic.com".data) ++ TAIL) =
        ("https:".data) ++ '/' :: '/' :: (("glowfic.com".data) ++ TAIL) from rfl]
    exact parseScheme_https _
  have hnl1 : (splitNetloc ('/' :: '/' :: (("glowfic.com".data) ++ TAIL))).1 =
      ("glowfic.com".data) := by
    show (("glowfic.com".data) ++ TAIL).takeWhile (fun c => !netlocDelim c) = _
    rw [takeWhile_append_all (by decide)]
    rcases hT with rfl | ⟨c, t, rfl, hc⟩
    · simp
    · rw [List.takeWhile_cons]
      simp [hc]
  constructor
  · simp only [urlsplitM]
    rw [hps]
  · simp only [urlsplitM]
    rw [hps]
    dsimp only
    exact hnl1

/-! `urlparseM` component lemmas: scheme, netloc, query and fragment
agree with `urlsplitM` (the params split only touches the path). -/

theorem urlparseM_scheme (u : List Char) : (urlparseM u).scheme = (urlsplitM u).scheme := rfl

theorem urlparseM_netloc (u : List Char) : (urlparseM u).netloc = (urlsplitM u).netloc := rfl

theorem urlparseM_query (u : List Char) : (urlparseM u).query = (urlsplitM u).query := rfl

theorem urlparseM_fragment (u : List Char) :
    (urlparseM u).fragment = (urlsplitM u).fragment := rfl

theorem splitQuery_fst_subset {l : List Char} {x : Char} (h : x ∈ (splitQuery l).1) :
    x ∈ l := by
  cases hs : splitFirst '?' l with
  | none =>
    rw [splitQuery_not_mem (splitFirst_eq_none.mp hs)] at h
    exact h
  | some ab =>
    obtain ⟨a, b⟩ := ab
    obtain ⟨heq, hna⟩ := splitFirst_eq_some hs
    rw [heq, splitQuery_append hna] at h
    rw [heq]
    exact List.mem_append.mpr (Or.inl h)

theorem splitQuery_fst_no_q (l : List Char) : '?' ∉ (splitQuery l).1 := by
  intro h
  cases hs : splitFirst '?' l with
  | none =>
    rw [splitQuery_not_mem (splitFirst_eq_none.mp hs)] at h
    exact splitFirst_eq_none.mp hs h
  | some ab =>
    obtain ⟨a, b⟩ := ab
    obtain ⟨heq, hna⟩ := splitFirst_eq_some hs
    rw [heq, splitQuery_append hna] at h
    exact hna h

theorem urlsplitM_path_no_q (url : List Char) : '?' ∉ (urlsplitM url).path := by
  intro h
  exact splitQuery_fst_no_q _ h

theorem urlsplitM_path_no_hash (url : List Char) : '#' ∉ (urlsplitM url).path := by
  intro h
  have h1 : '#' ∈ (splitFragment (splitNetloc (parseScheme url).2).2).1 :=
    splitQuery_fst_subset h
  exact splitFragment_fst_no_hash _ h1

/-! `splitParams` lemmas. -/

theorem mem_reverse_takeWhile_not_slash {p : List Char} {x : Char}
    (h : x ∈ (p.reverse.takeWhile (fun c => !decide (c = '/'))).reverse) :
    x ∈ p ∧ x ≠ '/' := by
  rw [List.mem_reverse] at h
  have hx : x ∈ p.reverse := (List.takeWhile_prefix _).sublist.mem h
  have hpred := List.mem_takeWhile_imp h
  rw [List.mem_reverse] at hx
  refine ⟨hx, ?_⟩
  simpa using hpred

theorem splitParams_eq_slash {p : List Char} (hs : '/' ∈ p) {a b : List Char}
    (hsf : splitFirst ';' ((p.reverse.takeWhile (fun c => !decide (c = '/'))).reverse) =
      some (a, b)) :
    splitParams p = ((p.reverse.dropWhile (fun c => !decide (c = '/'))).reverse ++ a, b) := by
  unfold splitParams
  rw [if_pos hs, hsf]

theorem splitParams_eq_slash_none {p : List Char} (hs : '/' ∈ p)
    (hsf : splitFirst ';' ((p.reverse.takeWhile (fun c => !decide (c = '/'))).reverse) =
      none) :
    splitParams p = (p, []) := by
  unfold splitParams
  rw [if_pos hs, hsf]

theorem splitParams_eq_noslash {p : List Char} (hs : '/' ∉ p) {a b : List Char}
    (hsf : splitFirst ';' p = some (a, b)) :
    splitParams p = (a, b) := by
  unfold splitParams
  rw [if_neg hs, hsf]

theorem splitParams_eq_noslash_none {p : List Char} (hs : '/' ∉ p)
    (hsf : splitFirst ';' p = none) :
    splitParams p = (p.dropLast, p) := by
  unfold splitParams
  rw [if_neg hs, hsf]

theorem splitParams_snd_subset {p : List Char} {x : Char}
    (h : x ∈ (splitParams p).2) : x ∈ p := by
  by_cases hs : '/' ∈ p
  · cases hsf : splitFirst ';' ((p.reverse.takeWhile (fun c => !decide (c = '/'))).reverse) with
    | none =>
      rw [splitParams_eq_slash_none hs hsf] at h
      cases h
    | some ab =>
      obtain ⟨a, b⟩ := ab
      rw [splitParams_eq_slash hs hsf] at h
      obtain ⟨heq, -⟩ := splitFirst_eq_some hsf
      have hb : x ∈ (p.reverse.takeWhile (fun c => !decide (c = '/'))).reverse := by
        rw [heq]
        exact List.mem_append.mpr (Or.inr (List.mem_cons_of_mem _ h))
      exact (mem_reverse_takeWhile_not_slash hb).1
  · cases hsf : splitFirst ';' p with
    | none =>
      rw [splitParams_eq_noslash_none hs hsf] at h
      exact h
    | some ab =>
      obtain ⟨a, b⟩ := ab
      rw [splitParams_eq_noslash hs hsf] at h
      obtain ⟨heq, -⟩ := splitFirst_eq_some hsf
      rw [heq]
      exact List.mem_append.mpr (Or.inr (List.mem_cons_of_mem _ h))

theorem splitParams_snd_no_slash (p : List Char) : '/' ∉ (splitParams p).2 := by
  intro h
  by_cases hs : '/' ∈ p
  · cases hsf : splitFirst ';' ((p.reverse.takeWhile (fun c => !decide (c = '/'))).reverse) with
    | none =>
      rw [splitParams_eq_slash_none hs hsf] at h
      cases h
    | some ab =>
      obtain ⟨a, b⟩ := ab
      rw [splitParams_eq_slash hs hsf] at h
      obtain ⟨heq, -⟩ := splitFirst_eq_some hsf
      have hb : '/' ∈ (p.reverse.takeWhile (fun c => !decide (c = '/'))).reverse := by
        rw [heq]
        exact List.mem_append.mpr (Or.inr (List.mem_cons_of_mem _ h))
      exact (mem_reverse_takeWhile_not_slash hb).2 rfl
  · exact hs (splitParams_snd_subset h)

theorem splitParams_append {f P : List Char} (hsf : ';' ∉ f) (hsp : '/' ∉ P) :
    splitParams (f ++ ';' :: P) = (f, P) := by
  by_cases hs : '/' ∈ f ++ ';' :: P
  · have hrev : (f ++ ';' :: P).reverse = P.reverse ++ ';' :: f.reverse := by
      simp
    have hallP : ∀ x ∈ P.reverse, (fun c => !decide (c = '/')) x = true := by
      intro x hx
      rw [List.mem_reverse] at hx
      have hxs : x ≠ '/' := fun he => hsp (he ▸ hx)
      simp [hxs]
    have htw : (f ++ ';' :: P).reverse.takeWhile (fun c => !decide (c = '/')) =
        P.reverse ++ ';' :: f.reverse.takeWhile (fun c => !decide (c = '/')) := by
      rw [hrev, takeWhile_append_all hallP, List.takeWhile_cons]
      simp
    have hdw : (f ++ ';' :: P).reverse.dropWhile (fun c => !decide (c = '/')) =
        f.reverse.dropWhile (fun c => !decide (c = '/')) := by
      rw [hrev, dropWhile_append_all hallP, List.dropWhile_cons]
      simp
    have hnosemi : ';' ∉ (f.reverse.takeWhile (fun c => !decide (c = '/'))).reverse := by
      intro hx
      rw [List.mem_reverse] at hx
      have hxf : ';' ∈ f.reverse := (List.takeWhile_prefix _).sublist.mem hx
      rw [List.mem_reverse] at hxf
      exact hsf hxf
    have hsegrev : ((f ++ ';' :: P).reverse.takeWhile (fun c => !decide (c = '/'))).reverse =
        (f.reverse.takeWhile (fun c => !decide (c = '/'))).reverse ++ ';' :: P := by
      rw [htw]
      simp
    have hsf2 : splitFirst ';'
        (((f ++ ';' :: P).reverse.takeWhile (fun c => !decide (c = '/'))).reverse) =
        some ((f.reverse.takeWhile (fun c => !decide (c = '/'))).reverse, P) := by
      rw [hsegrev]
      exact splitFirst_append_sep _ _ _ hnosemi
    rw [splitParams_eq_slash hs hsf2, hdw]
    have hfst : (f.reverse.dropWhile (fun c => !decide (c = '/'))).reverse ++
        (f.reverse.takeWhile (fun c => !decide (c = '/'))).reverse = f := by
      rw [← List.reverse_append, List.takeWhile_append_dropWhile, List.reverse_reverse]
    rw [hfst]
  · rw [splitParams_eq_noslash hs (splitFirst_append_sep _ _ _ hsf)]

theorem urlparseM_params_subset {url : List Char} {x : Char}
    (h : x ∈ (urlparseM url).params) : x ∈ (urlsplitM url).path := by
  by_cases hc : (urlsplitM url).scheme ∈ usesParams ∧ ';' ∈ (urlsplitM url).path
  · have he : (urlparseM url).params = (splitParams (urlsplitM url).path).2 := by
      simp only [urlparseM]
      rw [if_pos hc]
    rw [he] at h
    exact splitParams_snd_subset h
  · have he : (urlparseM url).params = [] := by
      simp only [urlparseM]
      rw [if_neg hc]
    rw [he] at h
    cases h

theorem urlparseM_params_no_slash (url : List Char) : '/' ∉ (urlparseM url).params := by
  intro h
  by_cases hc : (urlsplitM url).scheme ∈ usesParams ∧ ';' ∈ (urlsplitM url).path
  · have he : (urlparseM url).params = (splitParams (urlsplitM url).path).2 := by
      simp only [urlparseM]
      rw [if_pos hc]
    rw [he] at h
    exact splitParams_snd_no_slash _ h
  · have he : (urlparseM url).params = [] := by
      simp only [urlparseM]
      rw [if_neg hc]
    rw [he] at h
    cases h

theorem parseScheme_bad_prefix {f X : List Char} {d : Char} (hd : d ∈ f)
    (hdn : schemeChar d = false) (hcol : ':' ∉ f) :
    parseScheme (f ++ X) = ([], f ++ X) := by
  unfold parseScheme
  cases hsf : splitFirst ':' (f ++ X) with
  | none => rfl
  | some ab =>
    obtain ⟨b, a⟩ := ab
    obtain ⟨heq, hnb⟩ := splitFirst_eq_some hsf
    have hdb : d ∈ b := by
      rcases List.append_eq_append_iff.mp heq with ⟨w, hw1, hw2⟩ | ⟨w, hw1, hw2⟩
      · rw [hw1]
        exact List.mem_append.mpr (Or.inl hd)
      · cases w with
        | nil =>
          rw [List.append_nil] at hw1
          rw [← hw1]
          exact hd
        | cons w0 ws =>
          exfalso
          simp only [List.cons_append] at hw2
          injection hw2 with hw3 hw4
          apply hcol
          rw [hw1, ← hw3]
          exact List.mem_append.mpr (Or.inr (List.mem_cons_self _ _))
    cases b with
    | nil => cases hdb
    | cons c bs =>
      have hallf : (c :: bs).all schemeChar = false := by
        rw [List.all_eq_false]
        exact ⟨d, hdb, by rw [hdn]; exact Bool.false_ne_true⟩
      dsimp only
      rw [hallf, Bool.and_false]
      rfl

/-- `urlsplitM_plain` with the scheme-recognition fact supplied as a
hypothesis, for name parts whose tail may contain `:`. -/
theorem urlsplitM_plain2 {f q g : List Char}
    (hne : f ≠ []) (hh : f.head? ≠ some '/') (h1 : '#' ∉ f) (h2 : '?' ∉ f)
    (hqh : '#' ∉ q)
    (hps : parseScheme
        (f ++ (if q = [] then [] else '?' :: q) ++ (if g = [] then [] else '#' :: g)) =
      ([], f ++ (if q = [] then [] else '?' :: q) ++ (if g = [] then [] else '#' :: g))) :
    urlsplitM (f ++ (if q = [] then [] else '?' :: q) ++ (if g = [] then [] else '#' :: g)) =
      ⟨[], [], f, q, g⟩ := by
  have hfhead : ∀ X : List Char, (f ++ X).head? ≠ some '/' := by
    intro X
    rw [head?_append_ne hne]
    exact hh
  by_cases hq : q = [] <;> by_cases hg : g = []
  · subst hq; subst hg
    have hps2 : parseScheme f = ([], f) := by simpa using hps
    simp only [if_pos rfl, List.append_nil]
    have hnl := splitNetloc_not_dslash (take_two_ne_dslash hh)
    have hfr := splitFragment_not_mem h1
    have hqu := splitQuery_not_mem h2
    simp [urlsplitM, hps2, hnl, hfr, hqu]
  · subst hq
    have hps2 : parseScheme (f ++ '#' :: g) = ([], f ++ '#' :: g) := by
      simpa [hg] using hps
    simp only [if_pos rfl, List.append_nil, if_neg hg]
    have hnl := splitNetloc_not_dslash (take_two_ne_dslash (hfhead ('#' :: g)))
    have hfr := @splitFragment_append f g h1
    have hqu := splitQuery_not_mem h2
    simp [urlsplitM, hps2, hnl, hfr, hqu]
  · subst hg
    have hps2 : parseScheme (f ++ '?' :: q) = ([], f ++ '?' :: q) := by
      simpa [hq] using hps
    simp only [if_neg hq, if_pos rfl, List.append_nil]
    have hnl := splitNetloc_not_dslash (take_two_ne_dslash (hfhead ('?' :: q)))
    have hfq : '#' ∉ f ++ '?' :: q := by
      intro hc
      rcases List.mem_append.mp hc with hc1 | hc2
      · exact h1 hc1
      · rcases List.mem_cons.mp hc2 with hc3 | hc4
        · cases hc3
        · exact hqh hc4
    have hfr := splitFragment_not_mem hfq
    have hqu := @splitQuery_append f q h2
    simp [urlsplitM, hps2, hnl, hfr, hqu]
  · simp only [if_neg hq, if_neg hg] at hps ⊢
    have hassoc : f ++ '?' :: q ++ '#' :: g = f ++ '?' :: (q ++ '#' :: g) := by simp
    rw [hassoc]
    rw [hassoc] at hps
    have hnl := splitNetloc_not_dslash (take_two_ne_dslash (hfhead ('?' :: (q ++ '#' :: g))))
    have hfq : '#' ∉ f ++ '?' :: q := by
      intro hc
      rcases List.mem_append.mp hc with hc1 | hc2
      · exact h1 hc1
      · rcases List.mem_cons.mp hc2 with hc3 | hc4
        · cases hc3
        · exact hqh hc4
    have hfr : splitFragment (f ++ '?' :: (q ++ '#' :: g)) = (f ++ '?' :: q, g) := by
      rw [show f ++ '?' :: (q ++ '#' :: g) = (f ++ '?' :: q) ++ '#' :: g by simp]
      exact splitFragment_append hfq
    have hqu := @splitQuery_append f q h2
    simp [urlsplitM, hps, hnl, hfr, hqu]

theorem urlparseM_eq_of_urlsplitM {url : List Char} {S : SplitUrl} (h : urlsplitM url = S) :
    urlparseM url = ⟨S.scheme, S.netloc,
      (if S.scheme ∈ usesParams ∧ ';' ∈ S.path then splitParams S.path else (S.path, [])).1,
      (if S.scheme ∈ usesParams ∧ ';' ∈ S.path then splitParams S.path else (S.path, [])).2,
      S.query, S.fragment⟩ := by
  simp only [urlparseM]
  rw [h]

/-- Round trip of the reply-link rewrite: serializing a host-free parse
result whose path is a suitable name and re-parsing it recovers the
name, params, query and fragment. -/
theorem urlparse_roundtrip {f P Q G : List Char}
    (hne : f ≠ []) (hhd : f.head? ≠ some '/') (hhash : '#' ∉ f) (hqm : '?' ∉ f)
    (hcol : ':' ∉ f) (hsemi : ';' ∉ f)
    (hPh : '#' ∉ P) (hPq : '?' ∉ P) (hPs : '/' ∉ P) (hQh : '#' ∉ Q) :
    urlparseM (urlunparseM ⟨[], [], f, P, Q, G⟩) = ⟨[], [], f, P, Q, G⟩ := by
  by_cases hP : P = []
  · subst hP
    simp only [urlunparseM]
    rw [if_neg (by simp)]
    rw [urlunsplitM_plain hhd]
    rw [urlparseM_eq_of_urlsplitM (urlsplitM_plain hne hhd hhash hqm hcol hQh)]
    dsimp only
    rw [if_neg (fun hc => hsemi hc.2)]
  · have hne2 : f ++ ';' :: P ≠ [] := by simp
    have hh2 : (f ++ ';' :: P).head? ≠ some '/' := by
      rw [head?_append_ne hne]
      exact hhd
    have h12 : '#' ∉ f ++ ';' :: P := by
      intro hc
      rcases List.mem_append.mp hc with hc1 | hc2
      · exact hhash hc1
      · rcases List.mem_cons.mp hc2 with hc3 | hc4
        · cases hc3
        · exact hPh hc4
    have h22 : '?' ∉ f ++ ';' :: P := by
      intro hc
      rcases List.mem_append.mp hc with hc1 | hc2
      · exact hqm hc1
      · rcases List.mem_cons.mp hc2 with hc3 | hc4
        · cases hc3
        · exact hPq hc4
    have hcol2 : ':' ∉ f ++ [';'] := by
      intro hc
      rcases List.mem_append.mp hc with hc1 | hc2
      · exact hcol hc1
      · rcases List.mem_cons.mp hc2 with hc3 | hc4
        · cases hc3
        · cases hc4
    have hps : parseScheme ((f ++ ';' :: P) ++ (if Q = [] then [] else '?' :: Q) ++
          (if G = [] then [] else '#' :: G)) =
        ([], (f ++ ';' :: P) ++ (if Q = [] then [] else '?' :: Q) ++
          (if G = [] then [] else '#' :: G)) := by
      rw [show (f ++ ';' :: P) ++ (if Q = [] then [] else '?' :: Q) ++
            (if G = [] then [] else '#' :: G) =
          (f ++ [';']) ++ (P ++ ((if Q = [] then [] else '?' :: Q) ++
            (if G = [] then [] else '#' :: G))) by simp]
      exact parseScheme_bad_prefix
        (List.mem_append.mpr (Or.inr (List.mem_singleton.mpr rfl))) (by decide) hcol2
    have hsp := urlsplitM_plain2 hne2 hh2 h12 h22 hQh hps
    simp only [urlunparseM]
    rw [if_pos hP]
    rw [urlunsplitM_plain hh2]
    rw [urlparseM_eq_of_urlsplitM hsp]
    dsimp only
    rw [if_pos ⟨by decide, by simp⟩, splitParams_append hsemi hPs]

/-- Re-parsing an absolute `https://glowfic.com` serialization gives
back scheme `https` and netloc `glowfic.com`, whatever the path, query
and fragment were. -/
theorem urlparse_glowfic_abs (p q g : List Char) :
    (urlparseM (urlunsplitM ⟨("https".data), ("glowfic.com".data), p, q, g⟩)).scheme =
      ("https".data) ∧
    (urlparseM (urlunsplitM ⟨("https".data), ("glowfic.com".data), p, q, g⟩)).netloc =
      ("glowfic.com".data) := by
  rw [urlparseM_scheme, urlparseM_netloc, urlunsplitM_glowfic]
  apply urlsplitM_https_glowfic_tail
  by_cases hp : p = []
  · by_cases hq : q = []
    · by_cases hg : g = []
      · left
        simp [hp, hq, hg]
      · right
        exact ⟨'#', g, by simp [hp, hq, hg], by decide⟩
    · right
      refine ⟨'?', q ++ (if g = [] then [] else '#' :: g), ?_, by decide⟩
      simp [hp, hq]
  · right
    by_cases hph : p.head? = some '/'
    · cases hpc : p with
      | nil => exact absurd hpc hp
      | cons c p0 =>
        rw [hpc] at hph
        simp only [List.head?_cons, Option.some.injEq] at hph
        subst hph
        refine ⟨'/', p0 ++ (if q = [] then [] else '?' :: q) ++
          (if g = [] then [] else '#' :: g), ?_, by decide⟩
        simp [List.append_assoc]
    · refine ⟨'/', p ++ (if q = [] then [] else '?' :: q) ++
        (if g = [] then [] else '#' :: g), ?_, by decide⟩
      simp only [if_neg hp, if_neg hph]
      simp [List.append_assoc]

/-- Counterexample to C3 as stated: `#` is not among the banned filename
characters, so the chapter title `C#1` passes the sanitizer and yields
the mapped section file `Text/1-0 (C#1).xhtml`; rewriting the indexed
reply link `/posts/5` to it produces an href whose parse has path
`Text/1-0 (C` and fragment `1).xhtml` — the rewritten link does not
point at the mapped output file, and its fragment is not the original
(empty) one. -/
theorem claim_C3_counterexample :
    make_filename_valid_for_epub3 (pyFormatName 1 1 1 0 ("C#1".data)) =
      FilenameResult.ok ("1-0 (C#1).xhtml".data) ∧
    replyMatch ("/posts/5".data) = true ∧
    (urlparseM ("/posts/5".data)).fragment = [] ∧
    rewriteLink
        (fun r => if r = ("/posts/5".data) then some ("Text/1-0 (C#1).xhtml".data) else none)
        ("/posts/5".data) = ("Text/1-0 (C#1).xhtml".data) ∧
    (urlparseM ("Text/1-0 (C#1).xhtml".data)).path ≠ ("Text/1-0 (C#1).xhtml".data) ∧
    (urlparseM ("Text/1-0 (C#1).xhtml".data)).fragment = ("1).xhtml".data) := by decide

/-- Claim C3 (amended): the link rewriting of `compile_chapters` on one
href.  First, a reply-pattern link whose raw value is a key of the
anchor index is rewritten so that it parses with empty scheme and
netloc, the mapped output file as path, and the original params, query
and fragment preserved — provided the mapped name is nonempty, does not
start with a slash and contains none of `#`, `?`, `:` and `;`.  Slash,
`?` and `:` are banned by the filename sanitizer and cannot occur in
the name, but `#` and `;` can reach it through a chapter title, and
with them the rewritten href no longer parses back to the mapped file
(see the counterexample).  Second, any other link without an explicit
host is rewritten to an absolute link with scheme `https` on host
`glowfic.com`.  Third, a link with an explicit (in particular a
different) host is left unchanged. -/
theorem claim_C3_link_rewrite (idx : List Char → Option (List Char)) (raw : List Char) :
    (∀ f, replyMatch raw = true → idx raw = some f →
      f ≠ [] → f.head? ≠ some '/' → '#' ∉ f → '?' ∉ f → ':' ∉ f → ';' ∉ f →
      urlparseM (rewriteLink idx raw) =
        ⟨[], [], f, (urlparseM raw).params, (urlparseM raw).query,
          (urlparseM raw).fragment⟩) ∧
    ((replyMatch raw = true → idx raw = none) → (urlparseM raw).netloc = [] →
      (urlparseM (rewriteLink idx raw)).scheme = ("https".data) ∧
      (urlparseM (rewriteLink idx raw)).netloc = ("glowfic.com".data)) ∧
    ((urlparseM raw).netloc ≠ [] → rewriteLink idx raw = raw) := by
  refine ⟨?_, ?_, ?_⟩
  · intro f hrm hidx hne hhd hhash hqm hcol hsemi
    obtain ⟨t, hraw, hth⟩ := replyMatch_structure hrm
    have hparts := urlsplitM_slash_parts hth
    rw [← hraw] at hparts
    obtain ⟨hsch, hnl⟩ := hparts
    have hscrut1 : (if replyMatch raw then idx raw else none) = some f := by
      rw [hrm, if_pos rfl]
      exact hidx
    simp only [rewriteLink]
    rw [hscrut1]
    dsimp only
    have hrec : { urlparseM raw with path := f } =
        (⟨[], [], f, (urlparseM raw).params, (urlparseM raw).query,
          (urlparseM raw).fragment⟩ : ParseUrl) := by
      have hs0 : (urlparseM raw).scheme = [] := by
        rw [urlparseM_scheme]
        exact hsch
      have hn0 : (urlparseM raw).netloc = [] := by
        rw [urlparseM_netloc]
        exact hnl
      rcases hur : urlparseM raw with ⟨s0, n0, p0, r0, q0, g0⟩
      rw [hur] at hs0 hn0
      dsimp only at hs0 hn0
      subst hs0
      subst hn0
      rfl
    rw [hrec]
    have hPsub : ∀ x, x ∈ (urlparseM raw).params → x ∈ (urlsplitM raw).path :=
      fun x hx => urlparseM_params_subset hx
    exact urlparse_roundtrip hne hhd hhash hqm hcol hsemi
      (fun hx => urlsplitM_path_no_hash raw (hPsub _ hx))
      (fun hx => urlsplitM_path_no_q raw (hPsub _ hx))
      (urlparseM_params_no_slash raw)
      (by rw [urlparseM_query]; exact urlsplitM_query_no_hash raw)
  · intro hno hnl
    have hscrut : (if replyMatch raw then idx raw else none) = none := by
      cases hb : replyMatch raw
      · simp
      · simp only [if_pos rfl]
        exact hno hb
    simp only [rewriteLink]
    rw [hscrut]
    dsimp only
    rw [if_pos hnl]
    have hrec : { urlparseM raw with scheme := ("https".data), netloc := ("glowfic.com".data) } =
        (⟨("https".data), ("glowfic.com".data), (urlparseM raw).path, (urlparseM raw).params,
          (urlparseM raw).query, (urlparseM raw).fragment⟩ : ParseUrl) := by
      rcases hur : urlparseM raw with ⟨s0, n0, p0, r0, q0, g0⟩
      rfl
    rw [hrec]
    simp only [urlunparseM]
    exact urlparse_glowfic_abs _ _ _
  · intro hnl
    have hrm : replyMatch raw = false := by
      cases hb : replyMatch raw
      · rfl
      · exfalso
        obtain ⟨t, hraw, hth⟩ := replyMatch_structure hb
        obtain ⟨-, hn⟩ := urlsplitM_slash_parts hth
        rw [← hraw] at hn
        apply hnl
        rw [urlparseM_netloc]
        exact hn
    have hscrut3 : (if replyMatch raw then idx raw else none) = none := by
      rw [hrm]
      rfl
    simp only [rewriteLink]
    rw [hscrut3]
    dsimp only
    rw [if_neg hnl]

/-- Witness for the amended C3, exercising all three cases at concrete
links. -/
theorem claim_C3_link_rewrite_witness :
    (urlparseM (rewriteLink
        (fun r => if r = ("/replies/99#frag".data) then some ("Text/01-0 (T).xhtml".data)
          else none)
        ("/replies/99#frag".data)) =
      ⟨[], [], ("Text/01-0 (T).xhtml".data),
        (urlparseM ("/replies/99#frag".data)).params,
        (urlparseM ("/replies/99#frag".data)).query,
        (urlparseM ("/replies/99#frag".data)).fragment⟩) ∧
    ((urlparseM (rewriteLink (fun _ => none) ("/users/3".data))).scheme = ("https".data) ∧
      (urlparseM (rewriteLink (fun _ => none) ("/users/3".data))).netloc =
        ("glowfic.com".data)) ∧
    rewriteLink (fun _ => none) ("https://example.com/x".data) =
      ("https://example.com/x".data) :=
  ⟨(claim_C3_link_rewrite _ _).1 _ (by decide) (by decide) (by decide) (by decide)
      (by decide) (by decide) (by decide) (by decide),
   (claim_C3_link_rewrite _ _).2.1 (fun _ => rfl) (by decide),
   (claim_C3_link_rewrite _ _).2.2 (by decide)⟩

/-! The image registry: claims C7 and C10. -/

theorem mapLookup_append {m : List (List Char × MappedImage)} {url : List Char}
    {v : MappedImage} (h : mapLookup m url = none) :
    mapLookup (m ++ [(url, v)]) url = some v := by
  induction m with
  | nil => simp [mapLookup]
  | cons kv rest ih =>
    obtain ⟨k, w⟩ := kv
    simp only [mapLookup] at h
    by_cases hk : k = url
    · rw [if_pos hk] at h
      cases h
    · rw [if_neg hk] at h
      simp only [List.cons_append, mapLookup, if_neg hk]
      exact ih h

theorem add_icon_of_mem {t : ImageMap} {url : List Char} {v : MappedImage}
    (h : mapLookup t.map url = some v) : t.add_icon url = t := by
  unfold ImageMap.add_icon
  rw [h]

/-- Claim C7 (amended): registering the same URL twice is a no-op — the
second `add_icon` leaves the registry state unchanged, so the generated
path for that URL is the same after one and after two registrations.
The further statement of the claim, that the path for a URL is unchanged
by later registrations of other URLs, is false: the zero-pad width is
recomputed at each first-time registration (see the counterexample). -/
theorem claim_C7_add_icon_idempotent (s : ImageMap) (url : List Char) :
    (s.add_icon url).add_icon url = s.add_icon url ∧
    ((s.add_icon url).add_icon url).get_icon url = (s.add_icon url).get_icon url := by
  have hstate : (s.add_icon url).add_icon url = s.add_icon url := by
    cases hl : mapLookup s.map url with
    | some m =>
      have h1 : s.add_icon url = s := add_icon_of_mem hl
      rw [h1]
      exact h1
    | none =>
      have hsome : mapLookup (s.add_icon url).map url =
          some ⟨("icon".data), s.next_icon,
            (pySplit '.' (urlparseM url).path).getLastD []⟩ := by
        unfold ImageMap.add_icon
        rw [hl]
        exact mapLookup_append hl
      exact add_icon_of_mem hsome
  exact ⟨hstate, by rw [hstate]⟩

/-- Counterexample to C7 as stated: after registering `u0.png` the path
generated for it is `Images/icon0.png`; after ten further first-time
registrations (`u1.png` ... `u10.png`) the recomputed pad width makes
the same lookup yield `Images/icon00.png` — the path for a URL is not
unchanged by later registrations. -/
theorem claim_C7_counterexample :
    c7CexMap1.get_icon (c7CexUrl 0) = some (("Images/icon0.png".data)) ∧
    c7CexMap11.get_icon (c7CexUrl 0) = some (("Images/icon00.png".data)) ∧
    c7CexMap1.get_icon (c7CexUrl 0) ≠ c7CexMap11.get_icon (c7CexUrl 0) := by decide

/-! Chapter download failure: claim C9. -/

/-- Claim C9: when the title container is missing from a fetched chapter
page, `download_chapter` fails and returns no chapter result: with the
remote error carrying the stripped banner text when an error banner is
present, and with the unexpected-structure error when none is. -/
theorem claim_C9_chapter_failure (soup : Soup) (htitle : soup.postTitleTag = none) :
    (∀ b, soup.flashErrorTag = some b →
      download_chapter soup = .error (.remoteError (pyStrip b.text))) ∧
    (soup.flashErrorTag = none → download_chapter soup = .error .unexpectedStructure) := by
  constructor
  · intro b hb
    unfold download_chapter validate_tag
    rw [htitle, hb]
  · intro hb
    unfold download_chapter validate_tag
    rw [htitle, hb]

/-- Witness for C9 at concrete soups with and without an error banner. -/
theorem claim_C9_chapter_failure_witness :
    download_chapter ⟨none, some ⟨(" err ".data)⟩, []⟩ =
      .error (.remoteError ("err".data)) ∧
    download_chapter ⟨none, none, []⟩ = .error .unexpectedStructure :=
  ⟨((claim_C9_chapter_failure ⟨none, some ⟨(" err ".data)⟩, []⟩ rfl).1
      ⟨(" err ".data)⟩ rfl).trans
      (congrArg
        (fun m => (Except.error (PyError.remoteError m) :
          Except PyError (List Char × List Section)))
        (by decide)),
   (claim_C9_chapter_failure ⟨none, none, []⟩ rfl).2 rfl⟩

/-- Claim C10: `get_icon` on a URL never passed to `add_icon` raises
(the call to the nonexistent method `self.add` — modelled by `none`)
instead of registering the URL and returning a path; it returns a
generated path exactly for the already-registered URLs. -/
theorem claim_C10_get_icon (s : ImageMap) (url : List Char) :
    (mapLookup s.map url = none → s.get_icon url = none) ∧
    (∀ m, mapLookup s.map url = some m →
      s.get_icon url = some (m.to_filename s.icon_id_width)) := by
  constructor
  · intro h
    unfold ImageMap.get_icon
    rw [h]
  · intro m h
    unfold ImageMap.get_icon
    rw [h]

/-- Witness for C10: the fresh registry errors on `x.png`; after
registering it, a path is returned. -/
theorem claim_C10_get_icon_witness :
    ImageMap.init.get_icon ("x.png".data) = none ∧
    (ImageMap.init.add_icon ("x.png".data)).get_icon ("x.png".data) ≠ none := by
  constructor
  · exact (claim_C10_get_icon ImageMap.init ("x.png".data)).1 rfl
  · have h := (claim_C10_get_icon (ImageMap.init.add_icon ("x.png".data)) ("x.png".data)).2
      ⟨("icon".data), 0, ("png".data)⟩ (by decide)
    rw [h]
    simp

/-! File-name assignment: claim C4. -/

theorem getElem?_some_lt {α : Type _} {l : List α} {i : Nat} {a : α}
    (h : l[i]? = some a) : i < l.length := by
  by_contra hge
  rw [List.getElem?_eq_none (by omega)] at h
  cases h

theorem getElem?_replicate_of_lt {α : Type _} {n i : Nat} {a : α} (h : i < n) :
    (List.replicate n a)[i]? = some a := by
  induction n generalizing i with
  | zero => omega
  | succ n ih =>
    rw [List.replicate_succ]
    cases i with
    | zero => simp
    | succ i =>
      rw [List.getElem?_cons_succ]
      exact ih (by omega)

theorem padPair_length {cd sd i1 j : Nat} (h1 : lenDec i1 ≤ cd) (h2 : lenDec j ≤ sd) :
    (padInt cd i1 ++ '-' :: padInt sd j).length = cd + 1 + sd := by
  rw [List.length_append, List.length_cons, padInt_length h1, padInt_length h2]
  omega

theorem padPair_allowed {cd sd i1 j : Nat} :
    ∀ c ∈ padInt cd i1 ++ '-' :: padInt sd j, charAllowed c = true := by
  intro c hc
  rcases List.mem_append.mp hc with h1 | h2
  · exact (padInt_chars c h1).1
  · rcases List.mem_cons.mp h2 with h3 | h4
    · subst h3; decide
    · exact (padInt_chars c h4).1

theorem padPair_bytes {cd sd i1 j : Nat} (h1 : lenDec i1 ≤ cd) (h2 : lenDec j ≤ sd) :
    utf8Len (padInt cd i1 ++ '-' :: padInt sd j) = cd + 1 + sd := by
  rw [utf8Len_eq_length, padPair_length h1 h2]
  intro c hc
  rcases List.mem_append.mp hc with hm1 | hm2
  · exact (padInt_chars c hm1).2.1
  · rcases List.mem_cons.mp hm2 with h3 | h4
    · subst h3; decide
    · exact (padInt_chars c h4).2.1

theorem padInt_bytes {w n : Nat} (h : lenDec n ≤ w) : utf8Len (padInt w n) = w := by
  rw [utf8Len_eq_length, padInt_length h]
  intro c hc
  exact (padInt_chars c hc).2.1

theorem formatRest_filter (title : List Char) :
    ((' ' :: '(' :: title ++ ')' :: (".xhtml".data)).filter charAllowed) =
      (' ' :: '(' :: (title.filter charAllowed) ++ [')']) ++ '.' :: ("xhtml".data) := by
  have h1 : (' ' :: '(' :: title ++ ')' :: (".xhtml".data)) =
      ([' ', '('] : List Char) ++ title ++ (')' :: '.' :: ("xhtml".data)) := rfl
  rw [h1, List.filter_append, List.filter_append]
  rw [show ([' ', '('] : List Char).filter charAllowed = [' ', '('] from by decide]
  rw [show ((')' :: '.' :: ("xhtml".data)) : List Char).filter charAllowed =
    ')' :: '.' :: ("xhtml".data) from by decide]
  simp [List.append_assoc]

theorem formatRestCh_filter (sd j : Nat) (title : List Char) :
    (('-' :: padInt sd j ++ ' ' :: '(' :: title ++ ')' :: (".xhtml".data)).filter charAllowed) =
      ('-' :: padInt sd j ++ ' ' :: '(' :: (title.filter charAllowed) ++ [')']) ++
        '.' :: ("xhtml".data) := by
  have h1 : ('-' :: padInt sd j ++ ' ' :: '(' :: title ++ ')' :: (".xhtml".data)) =
      (['-'] : List Char) ++ padInt sd j ++
        (' ' :: '(' :: title ++ ')' :: (".xhtml".data)) := by
    simp
  rw [h1, List.filter_append, List.filter_append]
  rw [show (['-'] : List Char).filter charAllowed = ['-'] from by decide]
  rw [List.filter_eq_self.mpr (fun c hc => (padInt_chars c hc).1)]
  rw [formatRest_filter]
  simp [List.append_assoc]

theorem sectionFileName_prefix (cd sd i j : Nat) (title : List Char)
    (hcd : lenDec (i + 1) ≤ cd) (hsd : lenDec j ≤ sd) (hbound : cd + 1 + sd ≤ 249) :
    ∃ tail, sectionFileName cd sd i j title =
      some ((("Text/".data) ++ (padInt cd (i + 1) ++ '-' :: padInt sd j)) ++ tail) := by
  have hfmt : pyFormatName cd (i + 1) sd j title =
      (padInt cd (i + 1) ++ '-' :: padInt sd j) ++
        (' ' :: '(' :: title ++ ')' :: (".xhtml".data)) := by
    unfold pyFormatName
    simp [List.append_assoc]
  obtain ⟨tail, htail⟩ := @make_filename_pre
    (padInt cd (i + 1) ++ '-' :: padInt sd j)
    (' ' :: '(' :: title ++ ')' :: (".xhtml".data))
    padPair_allowed
    (by rw [padPair_bytes hcd hsd]; omega)
    ⟨' ' :: '(' :: (title.filter charAllowed) ++ [')'], formatRest_filter title, by simp⟩
  refine ⟨tail, ?_⟩
  unfold sectionFileName
  rw [hfmt, htail]
  simp [List.append_assoc]

theorem sectionFileName_prefix_chapter (cd sd i j : Nat) (title : List Char)
    (hcd : lenDec (i + 1) ≤ cd) (hbound : cd ≤ 248) :
    ∃ tail, sectionFileName cd sd i j title =
      some ((("Text/".data) ++ padInt cd (i + 1)) ++ tail) := by
  have hfmt : pyFormatName cd (i + 1) sd j title =
      padInt cd (i + 1) ++
        ('-' :: padInt sd j ++ ' ' :: '(' :: title ++ ')' :: (".xhtml".data)) := by
    unfold pyFormatName
    simp [List.append_assoc]
  obtain ⟨tail, htail⟩ := @make_filename_pre
    (padInt cd (i + 1))
    ('-' :: padInt sd j ++ ' ' :: '(' :: title ++ ')' :: (".xhtml".data))
    (fun c hc => (padInt_chars c hc).1)
    (by rw [padInt_bytes hcd]; omega)
    ⟨'-' :: padInt sd j ++ ' ' :: '(' :: (title.filter charAllowed) ++ [')'],
      formatRestCh_filter sd j title, by simp⟩
  refine ⟨tail, ?_⟩
  unfold sectionFileName
  rw [hfmt, htail]
  simp [List.append_assoc]

/-- At an in-range chapter and section index, `assignedSectionFile`
computes `sectionFileName` at the digit widths of the chapter count and
of that chapter's section count. -/
theorem assignedSectionFile_pos (cs : List (List Char × List Section)) (i j : Nat)
    (c : List Char × List Section) (hc : cs[i]? = some c) (hj : j < c.2.length) :
    assignedSectionFile cs i j =
      sectionFileName (lenDec cs.length) (lenDec c.2.length) i j c.1 := by
  unfold assignedSectionFile
  rw [hc]
  dsimp only
  rw [if_pos hj]

set_option maxHeartbeats 1000000 in
/-- Claim C4 (amended): the file name of a section is a function solely
of the padded 1-based chapter index, the padded 0-based section index
and the chapter title (first conjunct), and the assignment is injective
provided the padded index fields fit inside the 249 bytes that filename
truncation preserves, i.e. when
`len(str(len(chapters))) + 1 + len(str(len(sections))) ≤ 249` (second
conjunct).  Without that bound, truncation of over-long names can erase
the distinguishing index digits (see the counterexample). -/
theorem claim_C4_file_names :
    (∀ (cs cs2 : List (List Char × List Section)) (i j : Nat)
        (c c2 : List Char × List Section),
      cs.length = cs2.length → cs[i]? = some c → cs2[i]? = some c2 →
      c.1 = c2.1 → c.2.length = c2.2.length →
      assignedSectionFile cs i j = assignedSectionFile cs2 i j) ∧
    (∀ (cs : List (List Char × List Section)) (i j i2 j2 : Nat)
        (c c2 : List Char × List Section),
      cs[i]? = some c → cs[i2]? = some c2 →
      j < c.2.length → j2 < c2.2.length →
      lenDec cs.length + 1 + lenDec c.2.length ≤ 249 →
      lenDec cs.length + 1 + lenDec c2.2.length ≤ 249 →
      assignedSectionFile cs i j = assignedSectionFile cs i2 j2 →
      i = i2 ∧ j = j2) := by
  constructor
  · intro cs cs2 i j c c2 hlen hc hc2 ht hsl
    unfold assignedSectionFile
    rw [hc, hc2]
    dsimp only
    rw [hlen, hsl, ht]
  · intro cs i j i2 j2 c c2 hc hc2 hj hj2 hb1 hb2 heq
    have hi : i < cs.length := getElem?_some_lt hc
    have hi2 : i2 < cs.length := getElem?_some_lt hc2
    have hcd1 : lenDec (i + 1) ≤ lenDec cs.length := lenDec_mono (by omega)
    have hcd2 : lenDec (i2 + 1) ≤ lenDec cs.length := lenDec_mono (by omega)
    have hsd1 : lenDec j ≤ lenDec c.2.length := lenDec_mono (by omega)
    have hsd2 : lenDec j2 ≤ lenDec c2.2.length := lenDec_mono (by omega)
    unfold assignedSectionFile at heq
    rw [hc, hc2] at heq
    dsimp only at heq
    rw [if_pos hj, if_pos hj2] at heq
    by_cases hii : i = i2
    · subst hii
      have hcc : c = c2 := by
        rw [hc] at hc2
        exact Option.some.inj hc2
      subst hcc
      refine ⟨rfl, ?_⟩
      obtain ⟨t1, ht1⟩ :=
        sectionFileName_prefix (lenDec cs.length) (lenDec c.2.length) i j c.1 hcd1 hsd1 hb1
      obtain ⟨t2, ht2⟩ :=
        sectionFileName_prefix (lenDec cs.length) (lenDec c.2.length) i j2 c.1 hcd1 hsd2 hb1
      rw [ht1, ht2] at heq
      injection heq with heq2
      obtain ⟨hD, _⟩ := List.append_inj heq2 (by
        simp only [List.length_append, List.length_cons,
          padInt_length hcd1, padInt_length hsd1, padInt_length hsd2])
      have hD2 := List.append_cancel_left hD
      have hD3 := List.append_cancel_left hD2
      injection hD3 with _ hD4
      exact padInt_inj hD4
    · exfalso
      obtain ⟨t1, ht1⟩ := sectionFileName_prefix_chapter (lenDec cs.length)
        (lenDec c.2.length) i j c.1 hcd1 (by omega)
      obtain ⟨t2, ht2⟩ := sectionFileName_prefix_chapter (lenDec cs.length)
        (lenDec c2.2.length) i2 j2 c2.1 hcd2 (by omega)
      rw [ht1, ht2] at heq
      injection heq with heq2
      obtain ⟨hD, _⟩ := List.append_inj heq2 (by
        simp only [List.length_append, padInt_length hcd1, padInt_length hcd2])
      have hD2 := List.append_cancel_left hD
      have hval := padInt_inj hD2
      omega

/-- Witness for the amended C4 at a one-chapter, one-section book. -/
theorem claim_C4_file_names_witness :
    assignedSectionFile [(("T".data), [Section.empty])] 0 0 =
      assignedSectionFile [(("T".data), [Section.empty])] 0 0 ∧
    (0 = 0 ∧ 0 = 0) :=
  ⟨claim_C4_file_names.1 [(("T".data), [Section.empty])] [(("T".data), [Section.empty])]
      0 0 (("T".data), [Section.empty]) (("T".data), [Section.empty])
      rfl (by decide) (by decide) rfl rfl,
   claim_C4_file_names.2 [(("T".data), [Section.empty])] 0 0 0 0
      (("T".data), [Section.empty]) (("T".data), [Section.empty])
      (by decide) (by decide) (by decide) (by decide) (by decide) (by decide) rfl⟩

set_option maxRecDepth 10000 in
/-- Counterexample to C4 as stated: with `10 ^ 249` chapters the padded
chapter index is 250 digits wide, the composed name exceeds 255 bytes,
and truncation keeps only the first 249 bytes of the name portion —
every distinguishing digit is cut off, so chapters 1 and 2 receive the
same section file name. -/
theorem claim_C4_counterexample :
    ((0, 0) : Nat × Nat) ≠ (1, 0) ∧
    assignedSectionFile c4CexChapters 0 0 = assignedSectionFile c4CexChapters 1 0 ∧
    (assignedSectionFile c4CexChapters 0 0).isSome = true := by
  have hlen : c4CexChapters.length = 10 ^ 249 := by
    unfold c4CexChapters
    rw [List.length_replicate]
  have h10 : (10 : Nat) ≤ 10 ^ 249 := by
    calc (10 : Nat) = 10 ^ 1 := by norm_num
    _ ≤ 10 ^ 249 := Nat.pow_le_pow_right (by omega) (by omega)
  have hget0 : c4CexChapters[0]? = some ((("T".data), [Section.empty])) := by
    unfold c4CexChapters
    exact getElem?_replicate_of_lt (by omega)
  have hget1 : c4CexChapters[1]? = some ((("T".data), [Section.empty])) := by
    unfold c4CexChapters
    exact getElem?_replicate_of_lt (by omega)
  have hld : lenDec c4CexChapters.length = 250 := by
    rw [hlen]
    exact lenDec_pow_ten 249
  have h00 : assignedSectionFile c4CexChapters 0 0 =
      sectionFileName 250 (lenDec 1) 0 0 ("T".data) := by
    rw [assignedSectionFile_pos c4CexChapters 0 0 (("T".data), [Section.empty])
      hget0 (by decide), hld]
    rfl
  have h10b : assignedSectionFile c4CexChapters 1 0 =
      sectionFileName 250 (lenDec 1) 1 0 ("T".data) := by
    rw [assignedSectionFile_pos c4CexChapters 1 0 (("T".data), [Section.empty])
      hget1 (by decide), hld]
    rfl
  refine ⟨by decide, ?_, ?_⟩
  · rw [h00, h10b]
    decide
  · rw [h00]
    decide

end Glowfic
